import Mathlib

/-!
# CPU scheduling simulator: FCFS, Round Robin, SPN and SRT

A shallow embedding of `src/main.cpp`.  C++ `int` values are mathematical
integers (`Int`, no wrap-around); the constant `INT_MAX` keeps its value
`2^31 - 1`.  Vectors are lists read with `List.getD` and written with
`List.set`; array indices and the process count `n` are natural numbers.
`while` loops are run with an explicit fuel argument and return `none` when
the fuel is exhausted before the loop condition becomes false.  The printing
code is not modelled; the per-process vectors `wt` and `tat` that the C++
functions print are returned next to the timeline.
-/

namespace CpuSched

/-- The constant `INT_MAX` of `<climits>` for a 32-bit `int`. -/
def INT_MAX : Int := 2147483647

/-- The `struct Timeline` of the source: one CPU-occupancy segment, with
`process_id = 0` for an idle segment. -/
structure Timeline where
  process_id : Int
  start_time : Int
  end_time : Int
deriving DecidableEq

/-- The `struct QueueState` of the source: one ready-queue snapshot. -/
structure QueueState where
  time : Int
  queue : List Int
  cpu_process : Int
deriving DecidableEq

/-- What an algorithm computes: the local vectors `wt` and `tat` and the
returned timeline. -/
structure SchedResult where
  wt : List Int
  tat : List Int
  timeline : List Timeline
deriving DecidableEq

/-- A `while (cond) body` loop run with fuel: `none` when the fuel runs out
while the condition still holds. -/
def while_loop {σ : Type} (cond : σ → Bool) (body : σ → σ) : Nat → σ → Option σ
  | 0, _ => none
  | fuel + 1, s => if cond s then while_loop cond body fuel (body s) else some s

/-! ## printGanttChart: consolidation of adjacent segments (lines 23-37) -/

/-- The scan `for i: if (!completed[i] && at[i] <= current_time && key[i] < min) { best = i; min = key[i]; }`
of SPN (key `bt`, lines 280-291) and SRT (key `rem_bt`, lines 344-355);
`best == -1` is `none`. -/
def select_best (key at_ : List Int) (completed : List Bool) (current_time : Int) (n : Nat) :
    Option Nat × Int :=
  (List.range n).foldl
    (fun acc i =>
      if !completed.getD i false && decide (at_.getD i 0 ≤ current_time)
          && decide (key.getD i 0 < acc.2) then (some i, key.getD i 0) else acc)
    (none, INT_MAX)

/-- The scan `next_at = INT_MAX; for i: if (p i) next_at = min(next_at, at[i]);`
(lines 188-189, 200-201, 296-300, 360-364). -/
def next_arrival (at_ : List Int) (p : Nat → Bool) (n : Nat) : Int :=
  (List.range n).foldl (fun next_at i => if p i then min next_at (at_.getD i 0) else next_at)
    INT_MAX

/-- The scan `for i: if (p i && !in_queue[i]) { q.push(i); in_queue[i] = true; }`
of Round Robin (lines 180-183, 192, 204, 222-229). -/
def enqueue_scan (p : Nat → Bool) (n : Nat) (q : List Nat) (in_queue : List Bool) :
    List Nat × List Bool :=
  (List.range n).foldl
    (fun acc i => if p i && !acc.2.getD i false then (acc.1 ++ [i], acc.2.set i true) else acc)
    (q, in_queue)

/-! ## FCFS (lines 111-154) -/

/-- The comparison lambda passed to `stable_sort` (lines 120-123). -/
def fcfs_before (at_ : List Int) (a b : Nat) : Bool :=
  if at_.getD a 0 ≠ at_.getD b 0 then decide (at_.getD a 0 < at_.getD b 0) else decide (a < b)

/-- Insertion of `a` in front of a sorted list, behind the elements strictly before it. -/
def stable_insert (lt : Nat → Nat → Bool) (a : Nat) : List Nat → List Nat
  | [] => [a]
  | b :: l => if lt b a then b :: stable_insert lt a l else a :: b :: l

/-- The library routine `std::stable_sort`, as a stable insertion sort.  The comparison of
`fcfs_findavgTime` is a strict total order on the indices, so every correct sort returns
the same vector. -/
def stable_sort (lt : Nat → Nat → Bool) : List Nat → List Nat
  | [] => []
  | a :: l => stable_insert lt a (stable_sort lt l)

/-- The local variables of `fcfs_findavgTime` that change in its loop. -/
structure FcfsState where
  current_time : Int
  wt : List Int
  tat : List Int
  timeline : List Timeline

/-- The body of the loop `for k` of `fcfs_findavgTime` at `i = idx[k]` (lines 128-138). -/
def fcfs_body (bt at_ : List Int) (s : FcfsState) (i : Nat) : FcfsState :=
  let s1 : FcfsState :=
    if s.current_time < at_.getD i 0 then
      { s with timeline := s.timeline ++ [⟨0, s.current_time, at_.getD i 0⟩],
               current_time := at_.getD i 0 }
    else s
  let start := s1.current_time
  let wt := s1.wt.set i (start - at_.getD i 0)
  let tat := s1.tat.set i (wt.getD i 0 + bt.getD i 0)
  { current_time := s1.current_time + bt.getD i 0, wt := wt, tat := tat,
    timeline := s1.timeline ++ [⟨(i : Int) + 1, start, s1.current_time + bt.getD i 0⟩] }

/-- The vector `idx` of `fcfs_findavgTime` after the sort (lines 118-123). -/
def fcfs_order (at_ : List Int) (n : Nat) : List Nat :=
  stable_sort (fcfs_before at_) (List.range n)

/-- The state of `fcfs_findavgTime` after its loop. -/
def fcfs_run (bt at_ : List Int) : FcfsState :=
  let n := bt.length
  (fcfs_order at_ n).foldl (fcfs_body bt at_)
    ⟨0, List.replicate n 0, List.replicate n 0, []⟩

/-- The function `fcfs_findavgTime` (lines 111-154). -/
def fcfs_findavgTime (bt at_ : List Int) : SchedResult :=
  let s := fcfs_run bt at_
  ⟨s.wt, s.tat, s.timeline⟩

/-- The accumulator `total_wt` of the printing loop (lines 141-148). -/
def total_wt (r : SchedResult) : Int := r.wt.foldl (fun acc w => acc + w) 0

/-! ## SPN (lines 268-329) -/

/-- The local variables of `srt_findavgTime` that change in its loop. -/
structure SrtState where
  current_time : Int
  processes_done : Nat
  rem_bt : List Int
  completed : List Bool
  wt : List Int
  tat : List Int
  timeline : List Timeline

/-- The body of the `while` loop of `srt_findavgTime` (lines 344-383). -/
def srt_body (bt at_ : List Int) (n : Nat) (s : SrtState) : SrtState :=
  match (select_best s.rem_bt at_ s.completed s.current_time n).1 with
  | none =>
    let next_at := next_arrival at_ (fun i => !s.completed.getD i false) n
    { s with timeline := s.timeline ++ [⟨0, s.current_time, next_at⟩], current_time := next_at }
  | some best =>
    let start := s.current_time
    let rem_bt := s.rem_bt.set best (s.rem_bt.getD best 0 - 1)
    let current_time := s.current_time + 1
    let timeline := s.timeline ++ [⟨(best : Int) + 1, start, current_time⟩]
    if rem_bt.getD best 0 = 0 then
      let tat := s.tat.set best (current_time - at_.getD best 0)
      let wt := s.wt.set best (tat.getD best 0 - bt.getD best 0)
      { current_time := current_time, processes_done := s.processes_done + 1,
        rem_bt := rem_bt, completed := s.completed.set best true,
        wt := wt, tat := tat, timeline := timeline }
    else
      { s with current_time := current_time, rem_bt := rem_bt, timeline := timeline }

/-- The state of `srt_findavgTime` before its loop (lines 333-340). -/
def srt_init (bt : List Int) : SrtState :=
  let n := bt.length
  ⟨0, 0, bt, List.replicate n false, List.replicate n 0, List.replicate n 0, []⟩

/-- The `while` loop of `srt_findavgTime` run from its initial state. -/
def srt_run (fuel : Nat) (bt at_ : List Int) : Option SrtState :=
  let n := bt.length
  while_loop (fun s => decide (s.processes_done < n)) (srt_body bt at_ n) fuel (srt_init bt)

/-- The function `srt_findavgTime` (lines 331-399), with fuel for its loop. -/
def srt_findavgTime (fuel : Nat) (bt at_ : List Int) : Option SchedResult :=
  (srt_run fuel bt at_).map (fun s => ⟨s.wt, s.tat, s.timeline⟩)

/-! ## Round Robin (lines 156-266) -/

/-- The function `getQueueContents` (lines 157-164): the queue front to back, ids 1-based. -/
def getQueueContents (q : List Nat) : List Int := q.map (fun (i : Nat) => (i : Int) + 1)

/-- The local variables of `rr_findavgTime`; the queue `q` is a list, front first. -/
structure RrState where
  t : Int
  completed : Nat
  rem_bt : List Int
  wt : List Int
  tat : List Int
  finished : List Bool
  in_queue : List Bool
  q : List Nat
  timeline : List Timeline
  queue_states : List QueueState

/-- One iteration of the loop `for unit` for the running process `i` (lines 218-229). -/
def rr_unit (at_ : List Int) (n : Nat) (i : Nat) (s : RrState) : RrState :=
  let rem_bt := s.rem_bt.set i (s.rem_bt.getD i 0 - 1)
  let t := s.t + 1
  let r := enqueue_scan (fun j => !s.finished.getD j false && decide (at_.getD j 0 = t)) n
    s.q s.in_queue
  { s with rem_bt := rem_bt, t := t, q := r.1, in_queue := r.2 }

/-- The loop `for (unit = 0; unit < exec; ++unit)` run `k` times (lines 216-230). -/
def rr_units (at_ : List Int) (n : Nat) (i : Nat) : Nat → RrState → RrState
  | 0, s => s
  | k + 1, s => rr_units at_ n i k (rr_unit at_ n i s)

/-- The branch `if (q.empty())` of the loop body: jump to the next arrival (lines 199-205). -/
def rr_idle (at_ : List Int) (n : Nat) (s : RrState) : RrState :=
  let next_at := next_arrival at_
    (fun i => !s.finished.getD i false && !s.in_queue.getD i false) n
  let t := max s.t next_at
  let r := enqueue_scan (fun i => decide (at_.getD i 0 ≤ t) && !s.finished.getD i false) n
    s.q s.in_queue
  { s with timeline := s.timeline ++ [⟨0, s.t, next_at⟩], t := t, q := r.1, in_queue := r.2 }

/-- The snapshot and the removal of the front process `i` of the queue (lines 208-211). -/
def rr_pop (s : RrState) (i : Nat) (rest : List Nat) : RrState :=
  { s with queue_states := s.queue_states ++ [⟨s.t, getQueueContents s.q, 0⟩],
           q := rest, in_queue := s.in_queue.set i false }

/-- The end of a dispatch of process `i` started at `start`: the timeline segment, then
completion or requeueing (lines 232-245). -/
def rr_finish (bt at_ : List Int) (i : Nat) (start : Int) (s2 : RrState) : RrState :=
  let s3 : RrState := { s2 with timeline := s2.timeline ++ [⟨(i : Int) + 1, start, s2.t⟩] }
  if s3.rem_bt.getD i 0 = 0 then
    let tat := s3.tat.set i (s3.t - at_.getD i 0)
    let wt := s3.wt.set i (tat.getD i 0 - bt.getD i 0)
    { s3 with finished := s3.finished.set i true, completed := s3.completed + 1,
              tat := tat, wt := wt }
  else
    { s3 with q := s3.q ++ [i], in_queue := s3.in_queue.set i true }

/-- The body of the `while` loop of `rr_findavgTime` (lines 197-245). -/
def rr_body (bt at_ : List Int) (quantum : Int) (n : Nat) (s : RrState) : RrState :=
  match s.q with
  | [] => rr_idle at_ n s
  | i :: rest =>
    let s1 := rr_pop s i rest
    let exec := min quantum (s1.rem_bt.getD i 0)
    let start := s1.t
    rr_finish bt at_ i start (rr_units at_ n i exec.toNat s1)

/-- The state of `rr_findavgTime` before its `while` loop (lines 168-193). -/
def rr_init (bt at_ : List Int) : RrState :=
  let n := bt.length
  let t : Int := 0
  let finished := List.replicate n false
  let r := enqueue_scan (fun i => decide (at_.getD i 0 ≤ t)) n [] (List.replicate n false)
  let s0 : RrState :=
    ⟨t, 0, bt, List.replicate n 0, List.replicate n 0, finished, r.2, r.1, [], []⟩
  if s0.q.isEmpty then
    let next_at := next_arrival at_ (fun i => !finished.getD i false) n
    let r1 := enqueue_scan (fun i => decide (at_.getD i 0 ≤ next_at)) n s0.q s0.in_queue
    { s0 with timeline := s0.timeline ++ [⟨0, t, next_at⟩], t := next_at,
              q := r1.1, in_queue := r1.2 }
  else s0

/-- The `while` loop of `rr_findavgTime` run from its initial state. -/
def rr_run (fuel : Nat) (bt at_ : List Int) (quantum : Int) : Option RrState :=
  let n := bt.length
  while_loop (fun s => decide (s.completed < n)) (rr_body bt at_ quantum n) fuel (rr_init bt at_)

/-- The vector `queue_states` of `rr_findavgTime` after the final push (lines 248-249). -/
def rr_queue_states (fuel : Nat) (bt at_ : List Int) (quantum : Int) : Option (List QueueState) :=
  (rr_run fuel bt at_ quantum).map (fun s => s.queue_states ++ [⟨s.t, [], 0⟩])

/-- The function `rr_findavgTime` (lines 166-266), with fuel for its loop. -/
def rr_findavgTime (fuel : Nat) (bt at_ : List Int) (quantum : Int) : Option SchedResult :=
  (rr_run fuel bt at_ quantum).map (fun s => ⟨s.wt, s.tat, s.timeline⟩)

/-! ## Quantities the properties are stated with -/

/-- Sum of the durations of the segments with `process_id != 0`. -/
def busyTime (tl : List Timeline) : Int :=
  ((tl.filter (fun s => s.process_id ≠ 0)).map (fun s => s.end_time - s.start_time)).sum

/-- Sum of the durations of the segments with `process_id == 0`. -/
def idleTime (tl : List Timeline) : Int :=
  ((tl.filter (fun s => s.process_id = 0)).map (fun s => s.end_time - s.start_time)).sum

/-- The `end_time` of the last segment of the timeline whose `process_id` is `pid`. -/
def lastEnd (tl : List Timeline) (pid : Int) : Option Int :=
  ((tl.filter (fun s => s.process_id = pid)).getLast?).map (fun s => s.end_time)

/-- The segments run from time `a` to time `b` without gap or overlap. -/
def Chained (a : Int) : List Timeline → Int → Prop
  | [], b => a = b
  | s :: tl, b => s.start_time = a ∧ s.start_time ≤ s.end_time ∧ Chained s.end_time tl b

/-! ## Input conditions and loop invariants -/

/-- The input contract: both vectors have `n` entries, arrivals lie in `0..INT_MAX`
and bursts are at least 1. -/
structure InRange (bt at_ : List Int) (n : Nat) : Prop where
  len_bt : bt.length = n
  len_at : at_.length = n
  at_nonneg : ∀ i, i < n → 0 ≤ at_.getD i 0
  at_le : ∀ i, i < n → at_.getD i 0 ≤ INT_MAX
  bt_pos : ∀ i, i < n → 1 ≤ bt.getD i 0

/-- The total burst time of the processes not yet completed (SPN). -/
def pending (bt : List Int) (completed : List Bool) (n : Nat) : Int :=
  ((List.range n).map (fun i => if completed.getD i false then 0 else bt.getD i 0)).sum

/-- Process `a` comes before process `b` in ascending (arrival time, index) order. -/
def arrivalBefore (at_ : List Int) (a b : Nat) : Prop :=
  at_.getD a 0 < at_.getD b 0 ∨ (at_.getD a 0 = at_.getD b 0 ∧ a < b)

/-- The loop invariant of `rr_findavgTime`, at the head of its `while` loop. -/
structure RrInv (bt at_ : List Int) (n : Nat) (s : RrState) : Prop where
  len_rem : s.rem_bt.length = n
  len_wt : s.wt.length = n
  len_tat : s.tat.length = n
  len_finished : s.finished.length = n
  len_inq : s.in_queue.length = n
  done_eq : s.completed = s.finished.count true
  q_mem : ∀ j, j ∈ s.q ↔ (j < n ∧ s.in_queue.getD j false = true)
  q_nodup : s.q.Nodup
  inq_unfinished : ∀ j, j < n → s.in_queue.getD j false = true →
    s.finished.getD j false = false
  inq_arrived : ∀ j, j < n → s.in_queue.getD j false = true → at_.getD j 0 ≤ s.t
  arrived : ∀ j, j < n → s.finished.getD j false = false →
    s.in_queue.getD j false = false → s.t < at_.getD j 0
  rem_pos : ∀ j, j < n → s.finished.getD j false = false → 1 ≤ s.rem_bt.getD j 0
  rem_zero : ∀ j, j < n → s.finished.getD j false = true → s.rem_bt.getD j 0 = 0
  rem_le : ∀ j, j < n → s.rem_bt.getD j 0 ≤ bt.getD j 0
  chain : Chained 0 s.timeline s.t
  busy : busyTime s.timeline = bt.sum - s.rem_bt.sum
  consist : ∀ j, j < n → s.finished.getD j false = true →
    s.tat.getD j 0 = s.wt.getD j 0 + bt.getD j 0 ∧
    lastEnd s.timeline ((j : Int) + 1) = some (s.tat.getD j 0 + at_.getD j 0)

/-- The invariant of the loop `for unit` of `rr_findavgTime` while process `i` runs. -/
structure RrMid (at_ : List Int) (n : Nat) (i : Nat) (s : RrState) : Prop where
  len_rem : s.rem_bt.length = n
  len_finished : s.finished.length = n
  len_inq : s.in_queue.length = n
  q_mem : ∀ j, j ∈ s.q ↔ (j < n ∧ s.in_queue.getD j false = true)
  q_nodup : s.q.Nodup
  inq_unfinished : ∀ j, j < n → s.in_queue.getD j false = true →
    s.finished.getD j false = false
  inq_arrived : ∀ j, j < n → s.in_queue.getD j false = true → at_.getD j 0 ≤ s.t
  i_lt : i < n
  i_not_inq : s.in_queue.getD i false = false
  i_unfinished : s.finished.getD i false = false
  i_arrived : at_.getD i 0 ≤ s.t
  arrived : ∀ j, j < n → j ≠ i → s.finished.getD j false = false →
    s.in_queue.getD j false = false → s.t < at_.getD j 0

/-- The termination measure of the Round Robin loop: twice the remaining work, plus one
when the ready queue is empty. -/
def rr_measure (s : RrState) : Nat :=
  2 * s.rem_bt.sum.toNat + (if s.q = [] then 1 else 0)

/-! ## The properties, as stated -/

/-- A fuelled algorithm returns a result, and every result it returns satisfies `P`. -/
def Returns (run : Nat → Option SchedResult) (P : SchedResult → Prop) : Prop :=
  (∃ fuel r, run fuel = some r) ∧ ∀ fuel r, run fuel = some r → P r

/-- The remaining time of process `p` (0-based) at time `t`: its burst minus the time it
has run in the segments that end at or before `t`. -/
def remaining_at (bt : List Int) (tl : List Timeline) (p : Nat) (t : Int) : Int :=
  bt.getD p 0 -
    ((tl.filter (fun s => s.process_id = (p : Int) + 1 ∧ s.end_time ≤ t)).map
      (fun s => s.end_time - s.start_time)).sum

/-- The total time the process with id `pid` runs in the timeline. -/
def execTime (tl : List Timeline) (pid : Int) : Int :=
  ((tl.filter (fun s => s.process_id = pid)).map (fun s => s.end_time - s.start_time)).sum

/-- Process `j` (0-based) has completed by time `s`: its last segment ends at or before `s`. -/
def CompletedBy (tl : List Timeline) (j : Nat) (s : Int) : Prop :=
  ∃ c, lastEnd tl ((j : Int) + 1) = some c ∧ c ≤ s

/-- The form of `WorkConserving` kept while a timeline is built: `done j` says that process
`j` has been completed so far. -/
def IdleInv (at_ : List Int) (n : Nat) (done : Nat → Prop) (tl : List Timeline) : Prop :=
  ∀ seg, seg ∈ tl → seg.process_id = 0 →
    seg.start_time < seg.end_time ∧
    (∀ j, j < n → (done j ∧ CompletedBy tl j seg.start_time) ∨ seg.end_time ≤ at_.getD j 0) ∧
    ∃ j, j < n ∧ at_.getD j 0 = seg.end_time

/-- The non-idle segments of a timeline, in order. -/
def busySegments (tl : List Timeline) : List Timeline :=
  tl.filter (fun s => s.process_id ≠ 0)

/-- A snapshot taken right before the dispatch that produces the segment `seg`. -/
def SnapshotOf (snap : QueueState) (seg : Timeline) : Prop :=
  snap.queue ≠ [] ∧ snap.time = seg.start_time ∧ snap.queue.head? = some seg.process_id

/-- The ready queue in a snapshot holds exactly the processes that have arrived by the
snapshot's time and still have work left then, each once. -/
def QueueExact (bt at_ : List Int) (n : Nat) (tl : List Timeline) (snap : QueueState) : Prop :=
  snap.queue.Nodup ∧ (∀ id, id ∈ snap.queue → ∃ j, j < n ∧ id = (j : Int) + 1) ∧
  ∀ j, j < n → (((j : Int) + 1) ∈ snap.queue ↔
    (at_.getD j 0 ≤ snap.time ∧ 0 < remaining_at bt tl j snap.time))

/-- The queue `q` (0-based indices) at time `t` after process `p` ran in `seg` and was put
back: `p` is last, and the processes that arrived during `seg` stand right before it, in
ascending (arrival time, index) order. -/
def RequeuedAfter (at_ : List Int) (n : Nat) (seg : Timeline) (t : Int) (q : List Nat)
    (p : Nat) : Prop :=
  t = seg.end_time ∧ ∃ front arrivals, q = front ++ arrivals ++ [p] ∧
    (∀ j, j ∈ arrivals ↔ (j < n ∧ seg.start_time < at_.getD j 0 ∧
      at_.getD j 0 ≤ seg.end_time)) ∧
    arrivals.Pairwise (arrivalBefore at_)

/-- What the Round Robin loop keeps true of the timeline and the snapshots built so far. -/
structure RrHist (bt at_ : List Int) (quantum : Int) (n : Nat) (s : RrState) : Prop where
  segs : ∀ seg, seg ∈ s.timeline → seg.process_id = 0 ∨
    ∃ j, j < n ∧ seg.process_id = (j : Int) + 1 ∧ at_.getD j 0 ≤ seg.start_time ∧
      seg.start_time < seg.end_time
  rem_acct : ∀ j, j < n → execTime s.timeline ((j : Int) + 1) = bt.getD j 0 - s.rem_bt.getD j 0
  idle : 0 < n → IdleInv at_ n (fun j => s.finished.getD j false = true) s.timeline
  fin_arrived : ∀ j, j < n → s.finished.getD j false = true → at_.getD j 0 ≤ s.t
  qs_sorted : s.queue_states.Pairwise (fun a b => a.time ≤ b.time)
  qs_le : ∀ x, x ∈ s.queue_states → x.time ≤ s.t
  qs_len : s.queue_states.length = (busySegments s.timeline).length
  qs_segs : ∀ (k : Nat) seg snap, (busySegments s.timeline)[k]? = some seg →
    s.queue_states[k]? = some snap → SnapshotOf snap seg
  qs_exact : ∀ snap, snap ∈ s.queue_states → QueueExact bt at_ n s.timeline snap
  quantum_rule : ∀ (k : Nat) seg, s.timeline[k]? = some seg → ∀ p, p < n →
    seg.process_id = (p : Int) + 1 →
    seg.end_time - seg.start_time =
      min quantum (bt.getD p 0 - execTime (s.timeline.take k) ((p : Int) + 1)) ∧
    1 ≤ seg.end_time - seg.start_time ∧ seg.end_time - seg.start_time ≤ quantum
  last_max : ∀ seg, (busySegments s.timeline).getLast? = some seg →
    ∀ x, x ∈ s.timeline → x.process_id ≠ 0 → x.end_time ≤ seg.end_time

/-- What the Round Robin loop keeps true of a segment and the snapshot that follows it. -/
structure RrHistNext (bt at_ : List Int) (n : Nat) (s : RrState) : Prop where
  requeue : ∀ (k : Nat) seg snap, (busySegments s.timeline)[k]? = some seg →
    s.queue_states[k + 1]? = some snap → ∀ p, p < n → seg.process_id = (p : Int) + 1 →
    0 < remaining_at bt s.timeline p seg.end_time →
    ∃ q, snap.queue = getQueueContents q ∧ RequeuedAfter at_ n seg snap.time q p
  put_back : ∀ (k : Nat) seg snap, (busySegments s.timeline)[k]? = some seg →
    s.queue_states[k + 1]? = some snap → ∀ p, p < n → seg.process_id = (p : Int) + 1 →
    ((p : Int) + 1) ∈ snap.queue → 0 < remaining_at bt s.timeline p seg.end_time
  pending : ∀ seg, (busySegments s.timeline).getLast? = some seg → ∀ p, p < n →
    seg.process_id = (p : Int) + 1 → s.finished.getD p false = false →
    RequeuedAfter at_ n seg s.t s.q p

/-- The function `rr_findavgTime` returns a result and fills its vector `queue_states`,
and every such pair it produces satisfies `P`. -/
def RrReturns (bt at_ : List Int) (quantum : Int)
    (P : SchedResult → List QueueState → Prop) : Prop :=
  (∃ fuel r qs, rr_findavgTime fuel bt at_ quantum = some r ∧
    rr_queue_states fuel bt at_ quantum = some qs) ∧
  ∀ fuel r qs, rr_findavgTime fuel bt at_ quantum = some r →
    rr_queue_states fuel bt at_ quantum = some qs → P r qs

theorem getD_set_self {α : Type} (l : List α) (i : Nat) (v d : α) (h : i < l.length) :
    (l.set i v).getD i d = v := by
  simp [List.getD_eq_getElem?_getD, h]

theorem getD_set_other {α : Type} (l : List α) (i j : Nat) (v d : α) (h : i ≠ j) :
    (l.set i v).getD j d = l.getD j d := by
  simp [List.getD_eq_getElem?_getD, List.getElem?_set_ne h]

theorem sum_set (l : List Int) (i : Nat) (v : Int) (h : i < l.length) :
    (l.set i v).sum = l.sum - l.getD i 0 + v := by
  induction l generalizing i with
  | nil => simp at h
  | cons a l ih =>
    cases i with
    | zero => simp; ring
    | succ i =>
      simp at h
      simp [ih i h]; ring

theorem count_set_true (l : List Bool) (i : Nat) (h : i < l.length)
    (hf : l.getD i false = false) : (l.set i true).count true = l.count true + 1 := by
  induction l generalizing i with
  | nil => simp at h
  | cons a l ih =>
    cases i with
    | zero => simp at hf; simp [hf]
    | succ i =>
      simp at h
      have hf2 : l.getD i false = false := by simpa using hf
      have := ih i h hf2
      simp [List.count_cons, this]; omega

theorem exists_false_of_count_lt (l : List Bool) (h : l.count true < l.length) :
    ∃ i, i < l.length ∧ l.getD i false = false := by
  induction l with
  | nil => simp at h
  | cons a l ih =>
    cases a with
    | false => exact ⟨0, by simp, by simp⟩
    | true =>
      simp at h
      obtain ⟨i, hi, hf⟩ := ih h
      exact ⟨i + 1, by simp [hi], by simpa using hf⟩

theorem all_true_of_count_ge (l : List Bool) (h : l.length ≤ l.count true) (i : Nat)
    (hi : i < l.length) : l.getD i false = true := by
  by_contra hne
  have hf : l.getD i false = false := by simpa using hne
  have := count_set_true l i hi hf
  have h2 := List.count_le_length true (l.set i true)
  simp at h2
  omega

theorem sum_nonneg_of_forall (l : List Int) (h : ∀ i, i < l.length → 0 ≤ l.getD i 0) :
    0 ≤ l.sum := by
  induction l with
  | nil => simp
  | cons a l ih =>
    have h0 := h 0 (by simp)
    simp at h0
    have := ih (fun i hi => by simpa using h (i + 1) (by simp [hi]))
    simp; omega

/-! ## Timelines -/

theorem busyTime_append (tl : List Timeline) (s : Timeline) :
    busyTime (tl ++ [s]) =
      busyTime tl + (if s.process_id = 0 then 0 else s.end_time - s.start_time) := by
  unfold busyTime
  by_cases h : s.process_id = 0 <;> simp [List.filter_append, List.filter_cons, h]

theorem idleTime_append (tl : List Timeline) (s : Timeline) :
    idleTime (tl ++ [s]) =
      idleTime tl + (if s.process_id = 0 then s.end_time - s.start_time else 0) := by
  unfold idleTime
  by_cases h : s.process_id = 0 <;> simp [List.filter_append, List.filter_cons, h]

theorem lastEnd_append (tl : List Timeline) (s : Timeline) (pid : Int) :
    lastEnd (tl ++ [s]) pid = if s.process_id = pid then some s.end_time else lastEnd tl pid := by
  unfold lastEnd
  by_cases h : s.process_id = pid <;> simp [List.filter_append, List.filter_cons, h]

theorem chained_append (a b e : Int) (p : Int) (tl : List Timeline) (h : Chained a tl b)
    (hbe : b ≤ e) : Chained a (tl ++ [⟨p, b, e⟩]) e := by
  induction tl generalizing a with
  | nil =>
    simp only [Chained] at h
    subst h
    simp [Chained, hbe]
  | cons s tl ih =>
    obtain ⟨h1, h2, h3⟩ := h
    exact ⟨h1, h2, ih _ h3⟩

theorem chained_le (a b : Int) (tl : List Timeline) (h : Chained a tl b) : a ≤ b := by
  induction tl generalizing a with
  | nil => simp only [Chained] at h; omega
  | cons s tl ih =>
    obtain ⟨h1, h2, h3⟩ := h
    have := ih _ h3
    omega

theorem while_loop_invariant {σ : Type} (cond : σ → Bool) (body : σ → σ) (Inv : σ → Prop)
    (hstep : ∀ s, Inv s → cond s = true → Inv (body s)) (fuel : Nat) (s r : σ)
    (hs : Inv s) (hr : while_loop cond body fuel s = some r) : Inv r ∧ cond r = false := by
  induction fuel generalizing s with
  | zero => simp [while_loop] at hr
  | succ fuel ih =>
    unfold while_loop at hr
    by_cases hc : cond s = true
    · rw [if_pos hc] at hr
      exact ih _ (hstep s hs hc) hr
    · rw [if_neg hc] at hr
      cases hr
      exact ⟨hs, by simpa using hc⟩

theorem while_loop_terminates {σ : Type} (cond : σ → Bool) (body : σ → σ) (Inv : σ → Prop)
    (μ : σ → Nat) (hstep : ∀ s, Inv s → cond s = true → Inv (body s) ∧ μ (body s) < μ s)
    (fuel : Nat) (s : σ) (hs : Inv s) (hfuel : μ s < fuel) :
    ∃ r, while_loop cond body fuel s = some r := by
  induction fuel generalizing s with
  | zero => omega
  | succ fuel ih =>
    unfold while_loop
    by_cases hc : cond s = true
    · rw [if_pos hc]
      obtain ⟨h1, h2⟩ := hstep s hs hc
      exact ih _ h1 (by omega)
    · rw [if_neg hc]
      exact ⟨s, rfl⟩

theorem while_loop_deterministic {σ : Type} (cond : σ → Bool) (body : σ → σ) (f1 f2 : Nat)
    (s r1 r2 : σ) (h1 : while_loop cond body f1 s = some r1)
    (h2 : while_loop cond body f2 s = some r2) : r1 = r2 := by
  induction f1 generalizing s f2 with
  | zero => simp [while_loop] at h1
  | succ f1 ih =>
    cases f2 with
    | zero => simp [while_loop] at h2
    | succ f2 =>
      unfold while_loop at h1 h2
      by_cases hc : cond s = true
      · rw [if_pos hc] at h1 h2
        exact ih _ _ h1 h2
      · rw [if_neg hc] at h1 h2
        cases h1
        cases h2
        rfl

theorem while_loop_diverges {σ : Type} (cond : σ → Bool) (body : σ → σ) (Inv : σ → Prop)
    (hstep : ∀ s, Inv s → Inv (body s) ∧ cond s = true) (fuel : Nat) (s : σ) (hs : Inv s) :
    while_loop cond body fuel s = none := by
  induction fuel generalizing s with
  | zero => rfl
  | succ fuel ih =>
    unfold while_loop
    rw [if_pos (hstep s hs).2]
    exact ih _ (hstep s hs).1

/-! ## The scans -/

theorem next_arrival_succ (at_ : List Int) (p : Nat → Bool) (n : Nat) :
    next_arrival at_ p (n + 1) =
      (if p n then min (next_arrival at_ p n) (at_.getD n 0) else next_arrival at_ p n) := by
  simp [next_arrival, List.range_succ, List.foldl_append]

theorem next_arrival_spec (at_ : List Int) (p : Nat → Bool) (n : Nat) :
    next_arrival at_ p n ≤ INT_MAX ∧
    (∀ i, i < n → p i = true → next_arrival at_ p n ≤ at_.getD i 0) ∧
    (next_arrival at_ p n = INT_MAX ∨
      ∃ i, i < n ∧ p i = true ∧ at_.getD i 0 = next_arrival at_ p n) := by
  induction n with
  | zero => simp [next_arrival]
  | succ n ih =>
    obtain ⟨h1, h2, h3⟩ := ih
    rw [next_arrival_succ]
    by_cases hp : p n = true
    · rw [if_pos hp]
      refine ⟨le_trans (min_le_left _ _) h1, ?_, ?_⟩
      · intro i hi e1
        rcases Nat.lt_succ_iff_lt_or_eq.1 hi with hlt | rfl
        · exact le_trans (min_le_left _ _) (h2 i hlt e1)
        · exact min_le_right _ _
      · rcases le_total (next_arrival at_ p n) (at_.getD n 0) with hle | hle
        · rw [min_eq_left hle]
          rcases h3 with h3 | ⟨i, hi, e1, e2⟩
          · exact Or.inl h3
          · exact Or.inr ⟨i, by omega, e1, e2⟩
        · rw [min_eq_right hle]
          exact Or.inr ⟨n, Nat.lt_succ_self _, hp, rfl⟩
    · rw [if_neg hp]
      refine ⟨h1, ?_, ?_⟩
      · intro i hi e1
        rcases Nat.lt_succ_iff_lt_or_eq.1 hi with hlt | rfl
        · exact h2 i hlt e1
        · exact absurd e1 hp
      · rcases h3 with h3 | ⟨i, hi, e1, e2⟩
        · exact Or.inl h3
        · exact Or.inr ⟨i, by omega, e1, e2⟩

/-- With an eligible process whose arrival is an `int`, `next_arrival` is the least
arrival time among the eligible processes and is attained. -/
theorem next_arrival_attained (at_ : List Int) (p : Nat → Bool) (n : Nat)
    (hat : ∀ i, i < n → at_.getD i 0 ≤ INT_MAX) (j : Nat) (hj : j < n) (hp : p j = true) :
    ∃ i, i < n ∧ p i = true ∧ at_.getD i 0 = next_arrival at_ p n := by
  obtain ⟨_, h2, h3⟩ := next_arrival_spec at_ p n
  rcases h3 with h3 | h3
  · refine ⟨j, hj, hp, ?_⟩
    have := h2 j hj hp
    have := hat j hj
    omega
  · exact h3

theorem enqueue_scan_succ (p : Nat → Bool) (n : Nat) (q : List Nat) (inq : List Bool) :
    enqueue_scan p (n + 1) q inq =
      (if p n && !(enqueue_scan p n q inq).2.getD n false
        then ((enqueue_scan p n q inq).1 ++ [n], (enqueue_scan p n q inq).2.set n true)
        else enqueue_scan p n q inq) := by
  simp [enqueue_scan, List.range_succ, List.foldl_append]

theorem enqueue_scan_spec (p : Nat → Bool) (n : Nat) (q : List Nat) (inq : List Bool)
    (hn : n ≤ inq.length) :
    (enqueue_scan p n q inq).2.length = inq.length ∧
    (enqueue_scan p n q inq).1 =
      q ++ (List.range n).filter (fun j => p j && !inq.getD j false) ∧
    (∀ j, (enqueue_scan p n q inq).2.getD j false =
      (inq.getD j false || (decide (j < n) && p j))) := by
  induction n with
  | zero => simp [enqueue_scan]
  | succ n ih =>
    obtain ⟨h1, h2, h3⟩ := ih (by omega)
    rw [enqueue_scan_succ]
    have hn3 := h3 n
    simp only [lt_self_iff_false, decide_False, Bool.false_and, Bool.or_false] at hn3
    by_cases hc : (p n && !(enqueue_scan p n q inq).2.getD n false) = true
    · rw [if_pos hc]
      simp only [Bool.and_eq_true, Bool.not_eq_true'] at hc
      obtain ⟨hc1, hc2⟩ := hc
      rw [hn3] at hc2
      refine ⟨by simp [h1], ?_, ?_⟩
      · simp [-List.getD_eq_getElem?_getD, h2, List.range_succ, List.filter_append, hc1, hc2]
      · intro j
        by_cases hj : n = j
        · subst hj
          rw [getD_set_self _ _ _ _ (by omega)]
          simp [hc1]
        · rw [getD_set_other _ _ _ _ _ hj, h3 j]
          have : (j < n + 1) = (j < n) := by
            apply propext
            constructor <;> intro h <;> omega
          simp only [this]
    · rw [if_neg hc]
      simp only [Bool.and_eq_true, Bool.not_eq_true', not_and, Bool.not_eq_false] at hc
      rw [hn3] at hc
      refine ⟨h1, ?_, ?_⟩
      · rw [h2, List.range_succ, List.filter_append]
        by_cases hp : p n = true
        · simp [-List.getD_eq_getElem?_getD, hp, hc hp]
        · simp [hp]
      · intro j
        rw [h3 j]
        by_cases hj : j = n
        · subst hj
          by_cases hp : p j = true
          · simp [-List.getD_eq_getElem?_getD, hp, hc hp]
          · simp [hp]
        · have : (j < n + 1) = (j < n) := by
            apply propext
            constructor <;> intro h <;> omega
          simp only [this]

theorem getD_set {α : Type} (l : List α) (i j : Nat) (v d : α) :
    (l.set i v).getD j d = if i = j ∧ i < l.length then v else l.getD j d := by
  by_cases h : i = j
  · subst h
    by_cases hl : i < l.length
    · simp [-List.getD_eq_getElem?_getD, hl, getD_set_self]
    · have : l.set i v = l := by
        apply List.ext_getElem? 
        intro k
        by_cases hk : i = k
        · subst hk
          simp [List.getElem?_set, hl]
          omega
        · simp [List.getElem?_set_ne hk]
      simp [-List.getD_eq_getElem?_getD, hl, this]
  · simp [-List.getD_eq_getElem?_getD, h, getD_set_other]

/-! ## SRT: invariant and termination -/

theorem srt_body_some (bt at_ : List Int) (n : Nat) (s : SrtState) (b : Nat)
    (h : (select_best s.rem_bt at_ s.completed s.current_time n).1 = some b) :
    srt_body bt at_ n s =
      if (s.rem_bt.set b (s.rem_bt.getD b 0 - 1)).getD b 0 = 0 then
        { current_time := s.current_time + 1, processes_done := s.processes_done + 1,
          rem_bt := s.rem_bt.set b (s.rem_bt.getD b 0 - 1),
          completed := s.completed.set b true,
          wt := s.wt.set b
            ((s.tat.set b (s.current_time + 1 - at_.getD b 0)).getD b 0 - bt.getD b 0),
          tat := s.tat.set b (s.current_time + 1 - at_.getD b 0),
          timeline := s.timeline ++ [⟨(b : Int) + 1, s.current_time, s.current_time + 1⟩] }
      else
        { s with current_time := s.current_time + 1,
                 rem_bt := s.rem_bt.set b (s.rem_bt.getD b 0 - 1),
                 timeline := s.timeline ++
                   [⟨(b : Int) + 1, s.current_time, s.current_time + 1⟩] } := by
  simp only [srt_body, h]

theorem pid_ne_zero (b : Nat) : ¬ ((b : Int) + 1 = 0) := by omega

theorem pid_ne_of_ne (b i : Nat) (h : b ≠ i) : ¬ ((b : Int) + 1 = (i : Int) + 1) := by omega

theorem getD_replicate_false (n i : Nat) : (List.replicate n false).getD i false = false := by
  by_cases h : i < n <;> simp [List.getD_eq_getElem?_getD, List.getElem?_replicate, h]

theorem count_replicate_false (n : Nat) : (List.replicate n false).count true = 0 := by
  simp [List.count_replicate]

theorem enqueue_scan_mem (p : Nat → Bool) (n : Nat) (q : List Nat) (inq : List Bool)
    (hn : n ≤ inq.length) (hq : ∀ j, j ∈ q ↔ (j < n ∧ inq.getD j false = true)) (j : Nat) :
    j ∈ (enqueue_scan p n q inq).1 ↔ (j < n ∧ (enqueue_scan p n q inq).2.getD j false = true) := by
  obtain ⟨_, h2, h3⟩ := enqueue_scan_spec p n q inq hn
  rw [h2, h3 j, List.mem_append, hq j, List.mem_filter, List.mem_range]
  cases inq.getD j false <;> cases p j <;> simp

theorem enqueue_scan_nodup (p : Nat → Bool) (n : Nat) (q : List Nat) (inq : List Bool)
    (hn : n ≤ inq.length) (hq : ∀ j, j ∈ q ↔ (j < n ∧ inq.getD j false = true))
    (hnd : q.Nodup) : (enqueue_scan p n q inq).1.Nodup := by
  obtain ⟨_, h2, _⟩ := enqueue_scan_spec p n q inq hn
  rw [h2]
  refine List.nodup_append.2 ⟨hnd, (List.nodup_range n).filter _, ?_⟩
  intro j hj1 hj2
  have h1 := (hq j).1 hj1
  have h3 := (List.mem_filter.1 hj2).2
  rw [h1.2] at h3
  simp at h3

theorem rr_unit_mid (at_ : List Int) (n i : Nat) (s : RrState) (m : RrMid at_ n i s) :
    RrMid at_ n i (rr_unit at_ n i s) := by
  have hn : n ≤ s.in_queue.length := by rw [m.len_inq]
  obtain ⟨h1, _, h3⟩ := enqueue_scan_spec
    (fun j => !s.finished.getD j false && decide (at_.getD j 0 = s.t + 1)) n s.q s.in_queue hn
  refine ⟨by simp [rr_unit, m.len_rem], m.len_finished, by simp only [rr_unit, h1, m.len_inq],
    ?_, ?_, ?_, ?_, m.i_lt, ?_, m.i_unfinished, ?_, ?_⟩
  · exact enqueue_scan_mem _ n s.q s.in_queue hn m.q_mem
  · exact enqueue_scan_nodup _ n s.q s.in_queue hn m.q_mem m.q_nodup
  · intro j hj hin
    simp only [rr_unit, h3 j, Bool.or_eq_true, Bool.and_eq_true, Bool.not_eq_true',
      decide_eq_true_eq] at hin ⊢
    rcases hin with hin | hin
    · exact m.inq_unfinished j hj hin
    · exact hin.2.1
  · intro j hj hin
    simp only [rr_unit, h3 j, Bool.or_eq_true, Bool.and_eq_true, Bool.not_eq_true',
      decide_eq_true_eq] at hin ⊢
    rcases hin with hin | hin
    · have := m.inq_arrived j hj hin
      omega
    · omega
  · simp only [rr_unit, h3 i, m.i_not_inq, Bool.false_or, Bool.and_eq_false_imp,
      decide_eq_true_eq, Bool.not_eq_true', decide_eq_false_iff_not]
    intro _ _
    have := m.i_arrived
    omega
  · simp only [rr_unit]
    have := m.i_arrived
    omega
  · intro j hj hji hf hin
    simp only [rr_unit, h3 j, Bool.or_eq_false_iff, Bool.and_eq_false_imp, decide_eq_true_eq,
      Bool.not_eq_true', decide_eq_false_iff_not] at hin ⊢
    have := m.arrived j hj hji hf hin.1
    have := hin.2 hj hf
    omega

theorem rr_units_succ (at_ : List Int) (n i k : Nat) (s : RrState) :
    rr_units at_ n i (k + 1) s = rr_unit at_ n i (rr_units at_ n i k s) := by
  induction k generalizing s with
  | zero => rfl
  | succ k ih =>
    rw [rr_units, ih]
    rfl

/-- What `k` iterations of the loop `for unit` do to the state. -/
theorem rr_units_spec (at_ : List Int) (n i k : Nat) (s : RrState) (m : RrMid at_ n i s) :
    RrMid at_ n i (rr_units at_ n i k s) ∧
    (rr_units at_ n i k s).t = s.t + k ∧
    (rr_units at_ n i k s).rem_bt.sum = s.rem_bt.sum - k ∧
    (∀ j, (rr_units at_ n i k s).rem_bt.getD j 0 =
      if j = i then s.rem_bt.getD j 0 - k else s.rem_bt.getD j 0) ∧
    (rr_units at_ n i k s).finished = s.finished ∧
    (rr_units at_ n i k s).wt = s.wt ∧
    (rr_units at_ n i k s).tat = s.tat ∧
    (rr_units at_ n i k s).completed = s.completed ∧
    (rr_units at_ n i k s).timeline = s.timeline ∧
    (rr_units at_ n i k s).queue_states = s.queue_states := by
  induction k with
  | zero =>
    refine ⟨m, by simp [rr_units], by simp [rr_units], ?_, rfl, rfl, rfl, rfl, rfl, rfl⟩
    intro j
    simp [rr_units]
  | succ k ih =>
    obtain ⟨g1, g2, g3, g4, g5, g6, g7, g8, g9, g10⟩ := ih
    rw [rr_units_succ]
    have hil : i < (rr_units at_ n i k s).rem_bt.length := by rw [g1.len_rem]; exact m.i_lt
    refine ⟨rr_unit_mid at_ n i _ g1, ?_, ?_, ?_, g5, g6, g7, g8, g9, g10⟩
    · simp only [rr_unit, g2]
      push_cast
      ring
    · simp only [rr_unit, sum_set _ _ _ hil, g3]
      push_cast
      ring
    · intro j
      simp only [rr_unit, getD_set, g4]
      by_cases hji : j = i
      · subst hji
        simp only [hil, and_self, if_true]
        push_cast
        ring
      · have : ¬ (i = j) := fun e => hji e.symm
        simp only [hji, this, false_and, if_false]

/-! ## Round Robin: the loop body -/

theorem rr_body_nil (bt at_ : List Int) (quantum : Int) (n : Nat) (s : RrState)
    (h : s.q = []) : rr_body bt at_ quantum n s = rr_idle at_ n s := by
  simp only [rr_body, h]

theorem rr_body_cons (bt at_ : List Int) (quantum : Int) (n : Nat) (s : RrState) (i : Nat)
    (rest : List Nat) (h : s.q = i :: rest) :
    rr_body bt at_ quantum n s =
      rr_finish bt at_ i s.t
        (rr_units at_ n i (min quantum (s.rem_bt.getD i 0)).toNat (rr_pop s i rest)) := by
  simp only [rr_body, h, rr_pop]

theorem rr_idle_target (bt at_ : List Int) (n : Nat) (s : RrState) (hin : InRange bt at_ n)
    (inv : RrInv bt at_ n s) (hq : s.q = []) (hc : s.completed < n) :
    ∃ i, i < n ∧ s.finished.getD i false = false ∧ s.in_queue.getD i false = false ∧
      s.t < at_.getD i 0 ∧
      at_.getD i 0 = next_arrival at_
        (fun i => !s.finished.getD i false && !s.in_queue.getD i false) n := by
  have hinq : ∀ j, j < n → s.in_queue.getD j false = false := by
    intro j hj
    cases h : s.in_queue.getD j false with
    | false => rfl
    | true =>
      have := (inv.q_mem j).2 ⟨hj, h⟩
      rw [hq] at this
      simp at this
  have hcnt : s.finished.count true < s.finished.length := by
    rw [← inv.done_eq, inv.len_finished]
    exact hc
  obtain ⟨j, hj, hjf⟩ := exists_false_of_count_lt _ hcnt
  rw [inv.len_finished] at hj
  obtain ⟨i, hi, hp, he⟩ := next_arrival_attained at_
    (fun i => !s.finished.getD i false && !s.in_queue.getD i false) n
    hin.at_le j hj (by simp only [hjf, hinq j hj, Bool.not_false, Bool.and_self])
  simp only [Bool.and_eq_true, Bool.not_eq_true'] at hp
  exact ⟨i, hi, hp.1, hp.2, inv.arrived i hi hp.1 hp.2, he⟩

theorem rr_idle_inv (bt at_ : List Int) (n : Nat) (s : RrState) (hin : InRange bt at_ n)
    (inv : RrInv bt at_ n s) (hq : s.q = []) (hc : s.completed < n) :
    RrInv bt at_ n (rr_idle at_ n s) ∧ (rr_idle at_ n s).q ≠ [] ∧
      (rr_idle at_ n s).rem_bt = s.rem_bt := by
  obtain ⟨i, hi, hif, hiq, hit, he⟩ := rr_idle_target bt at_ n s hin inv hq hc
  have hn : n ≤ s.in_queue.length := by rw [inv.len_inq]
  have hmax : max s.t (next_arrival at_
      (fun i => !s.finished.getD i false && !s.in_queue.getD i false) n) = at_.getD i 0 := by
    rw [← he]
    exact max_eq_right (by omega)
  obtain ⟨h1, _, h3⟩ := enqueue_scan_spec
    (fun j => decide (at_.getD j 0 ≤ at_.getD i 0) && !s.finished.getD j false) n s.q s.in_queue hn
  have hmem := enqueue_scan_mem
    (fun j => decide (at_.getD j 0 ≤ at_.getD i 0) && !s.finished.getD j false) n s.q s.in_queue
    hn inv.q_mem
  refine ⟨⟨inv.len_rem, inv.len_wt, inv.len_tat, inv.len_finished, ?_, inv.done_eq, ?_, ?_, ?_,
    ?_, ?_, inv.rem_pos, inv.rem_zero, inv.rem_le, ?_, ?_, ?_⟩, ?_, rfl⟩
  · simp only [rr_idle, hmax, h1, inv.len_inq]
  · simp only [rr_idle, hmax]
    exact hmem
  · simp only [rr_idle, hmax]
    exact enqueue_scan_nodup _ n s.q s.in_queue hn inv.q_mem inv.q_nodup
  · intro j hj hjq
    simp only [rr_idle, hmax, h3 j, Bool.or_eq_true, Bool.and_eq_true, Bool.not_eq_true',
      decide_eq_true_eq] at hjq ⊢
    rcases hjq with hjq | hjq
    · exact inv.inq_unfinished j hj hjq
    · exact hjq.2.2
  · intro j hj hjq
    simp only [rr_idle, hmax, h3 j, Bool.or_eq_true, Bool.and_eq_true, Bool.not_eq_true',
      decide_eq_true_eq] at hjq ⊢
    rcases hjq with hjq | hjq
    · have := inv.inq_arrived j hj hjq
      omega
    · exact hjq.2.1
  · intro j hj hjf hjq
    have hjf2 : s.finished.getD j false = false := hjf
    simp only [rr_idle, hmax, h3 j, Bool.or_eq_false_iff, Bool.and_eq_false_imp,
      decide_eq_true_eq, Bool.not_eq_true', decide_eq_false_iff_not] at hjq ⊢
    have h5 := hjq.2 hj
    by_contra hle
    have := h5 (by omega)
    rw [hjf2] at this
    simp at this
  · simp only [rr_idle, hmax]
    rw [← he]
    exact chained_append 0 _ _ 0 _ inv.chain (by omega)
  · simp only [rr_idle, busyTime_append, if_true, add_zero]
    exact inv.busy
  · intro k hk hkf
    simp only [rr_idle, lastEnd_append]
    rw [if_neg (fun h => pid_ne_zero k h.symm)]
    exact inv.consist k hk hkf
  · have : i ∈ (rr_idle at_ n s).q := by
      simp only [rr_idle, hmax]
      rw [hmem i, h3 i]
      refine ⟨hi, ?_⟩
      simp [-List.getD_eq_getElem?_getD, hi, hif]
    intro hnil
    rw [hnil] at this
    simp at this

theorem rr_front (bt at_ : List Int) (n : Nat) (s : RrState) (inv : RrInv bt at_ n s) (i : Nat)
    (rest : List Nat) (hq : s.q = i :: rest) :
    i < n ∧ s.in_queue.getD i false = true ∧ s.finished.getD i false = false ∧
      at_.getD i 0 ≤ s.t ∧ 1 ≤ s.rem_bt.getD i 0 ∧ i ∉ rest := by
  have hmem : i ∈ s.q := by rw [hq]; exact List.mem_cons_self _ _
  obtain ⟨hi, hiq⟩ := (inv.q_mem i).1 hmem
  have hif := inv.inq_unfinished i hi hiq
  have hnd := inv.q_nodup
  rw [hq] at hnd
  exact ⟨hi, hiq, hif, inv.inq_arrived i hi hiq, inv.rem_pos i hi hif,
    (List.nodup_cons.1 hnd).1⟩

theorem rr_pop_mid (bt at_ : List Int) (n : Nat) (s : RrState) (inv : RrInv bt at_ n s)
    (i : Nat) (rest : List Nat) (hq : s.q = i :: rest) : RrMid at_ n i (rr_pop s i rest) := by
  obtain ⟨hi, hiq, hif, hia, _, hnr⟩ := rr_front bt at_ n s inv i rest hq
  have hil : i < s.in_queue.length := by rw [inv.len_inq]; exact hi
  have hnd := inv.q_nodup
  rw [hq] at hnd
  refine ⟨inv.len_rem, inv.len_finished, by simp [rr_pop, inv.len_inq], ?_,
    (List.nodup_cons.1 hnd).2, ?_, ?_, hi, ?_, hif, hia, ?_⟩
  · intro j
    simp only [rr_pop, getD_set]
    by_cases hij : i = j
    · subst hij
      simp [hil, hnr]
    · simp only [hij, false_and, if_false]
      rw [← inv.q_mem j, hq, List.mem_cons]
      constructor
      · intro h
        exact Or.inr h
      · intro h
        rcases h with h | h
        · exact absurd h.symm hij
        · exact h
  · intro j hj hjq
    simp only [rr_pop, getD_set] at hjq ⊢
    by_cases hij : i = j
    · subst hij
      exact hif
    · simp only [hij, false_and, if_false] at hjq
      exact inv.inq_unfinished j hj hjq
  · intro j hj hjq
    simp only [rr_pop, getD_set] at hjq ⊢
    by_cases hij : i = j
    · subst hij
      exact hia
    · simp only [hij, false_and, if_false] at hjq
      exact inv.inq_arrived j hj hjq
  · simp only [rr_pop, getD_set_self _ _ _ _ hil]
  · intro j hj hji hjf hjq
    have hij : ¬ (i = j) := fun e => hji e.symm
    simp only [rr_pop, getD_set, hij, false_and, if_false] at hjf hjq ⊢
    exact inv.arrived j hj hjf hjq

theorem rr_finish_done (bt at_ : List Int) (i : Nat) (start : Int) (s2 : RrState)
    (h : s2.rem_bt.getD i 0 = 0) :
    rr_finish bt at_ i start s2 =
      { s2 with timeline := s2.timeline ++ [⟨(i : Int) + 1, start, s2.t⟩],
                finished := s2.finished.set i true, completed := s2.completed + 1,
                tat := s2.tat.set i (s2.t - at_.getD i 0),
                wt := s2.wt.set i ((s2.tat.set i (s2.t - at_.getD i 0)).getD i 0 - bt.getD i 0) }
    := by
  simp only [rr_finish, h, if_true]

theorem rr_finish_requeue (bt at_ : List Int) (i : Nat) (start : Int) (s2 : RrState)
    (h : ¬ s2.rem_bt.getD i 0 = 0) :
    rr_finish bt at_ i start s2 =
      { s2 with timeline := s2.timeline ++ [⟨(i : Int) + 1, start, s2.t⟩],
                q := s2.q ++ [i], in_queue := s2.in_queue.set i true } := by
  simp only [rr_finish, h, if_false]

theorem rr_dispatch_inv (bt at_ : List Int) (quantum : Int) (hq1 : 1 ≤ quantum) (n : Nat)
    (s : RrState) (inv : RrInv bt at_ n s) (i : Nat) (rest : List Nat) (hq : s.q = i :: rest) :
    RrInv bt at_ n (rr_finish bt at_ i s.t
      (rr_units at_ n i (min quantum (s.rem_bt.getD i 0)).toNat (rr_pop s i rest))) ∧
    (rr_finish bt at_ i s.t
      (rr_units at_ n i (min quantum (s.rem_bt.getD i 0)).toNat (rr_pop s i rest))).rem_bt.sum
      < s.rem_bt.sum := by
  obtain ⟨hi, hiq, hif, hia, hir, hnr⟩ := rr_front bt at_ n s inv i rest hq
  have mid := rr_pop_mid bt at_ n s inv i rest hq
  obtain ⟨m, g2, g3, g4, g5, g6, g7, g8, g9, _⟩ :=
    rr_units_spec at_ n i (min quantum (s.rem_bt.getD i 0)).toNat (rr_pop s i rest) mid
  have hk : ((min quantum (s.rem_bt.getD i 0)).toNat : Int) = min quantum (s.rem_bt.getD i 0) :=
    Int.toNat_of_nonneg (by omega)
  rw [hk] at g2 g3 g4
  generalize rr_units at_ n i (min quantum (s.rem_bt.getD i 0)).toNat (rr_pop s i rest) = s2
    at m g2 g3 g4 g5 g6 g7 g8 g9
  have e1 : (rr_pop s i rest).t = s.t := rfl
  have e2 : (rr_pop s i rest).rem_bt = s.rem_bt := rfl
  have e3 : (rr_pop s i rest).finished = s.finished := rfl
  have e4 : (rr_pop s i rest).wt = s.wt := rfl
  have e5 : (rr_pop s i rest).tat = s.tat := rfl
  have e6 : (rr_pop s i rest).completed = s.completed := rfl
  have e7 : (rr_pop s i rest).timeline = s.timeline := rfl
  rw [e1] at g2
  rw [e2] at g3 g4
  rw [e3] at g5
  rw [e4] at g6
  rw [e5] at g7
  rw [e6] at g8
  rw [e7] at g9
  have hrem_i : s2.rem_bt.getD i 0 = s.rem_bt.getD i 0 - min quantum (s.rem_bt.getD i 0) := by
    rw [g4 i, if_pos rfl]
  have hrem_o : ∀ j, j ≠ i → s2.rem_bt.getD j 0 = s.rem_bt.getD j 0 := by
    intro j hj
    rw [g4 j, if_neg hj]
  have hil3 : i < s2.tat.length := by rw [g7, inv.len_tat]; exact hi
  have hil4 : i < s2.wt.length := by rw [g6, inv.len_wt]; exact hi
  have hilf : i < s2.finished.length := by rw [m.len_finished]; exact hi
  have hilq : i < s2.in_queue.length := by rw [m.len_inq]; exact hi
  have hchain : Chained 0 (s2.timeline ++ [⟨(i : Int) + 1, s.t, s2.t⟩]) s2.t := by
    rw [g9]
    exact chained_append 0 _ _ _ _ inv.chain (by omega)
  have hbusy : busyTime (s2.timeline ++ [⟨(i : Int) + 1, s.t, s2.t⟩]) = bt.sum - s2.rem_bt.sum := by
    rw [busyTime_append, g9, inv.busy, g3, g2]
    simp only [if_neg (pid_ne_zero i)]
    ring
  have hrem_le : ∀ j, j < n → s2.rem_bt.getD j 0 ≤ bt.getD j 0 := by
    intro j hj
    have := inv.rem_le j hj
    by_cases hji : j = i
    · subst hji
      rw [hrem_i]
      omega
    · rw [hrem_o j hji]
      exact this
  refine ⟨?_, ?_⟩
  · by_cases hz : s2.rem_bt.getD i 0 = 0
    · rw [rr_finish_done bt at_ i s.t s2 hz]
      refine ⟨m.len_rem, by simp [g6, inv.len_wt], by simp [g7, inv.len_tat],
        by simp [m.len_finished], m.len_inq, ?_, m.q_mem, m.q_nodup, ?_, m.inq_arrived, ?_, ?_, ?_,
        hrem_le, hchain, hbusy, ?_⟩
      · simp only
        rw [count_set_true _ _ hilf m.i_unfinished, g8, g5, inv.done_eq]
      · intro j hj hjq
        have hji : ¬ (i = j) := by
          intro e
          subst e
          rw [m.i_not_inq] at hjq
          simp at hjq
        simp only [getD_set, hji, false_and, if_false]
        exact m.inq_unfinished j hj hjq
      · intro j hj hjf hjq
        simp only [getD_set] at hjf
        by_cases hij : i = j
        · subst hij
          simp [hilf] at hjf
        · simp only [hij, false_and, if_false] at hjf
          exact m.arrived j hj (fun e => hij e.symm) hjf hjq
      · intro j hj hjf
        simp only [getD_set] at hjf
        by_cases hij : i = j
        · subst hij
          simp [hilf] at hjf
        · simp only [hij, false_and, if_false] at hjf
          rw [hrem_o j (fun e => hij e.symm)]
          rw [g5] at hjf
          exact inv.rem_pos j hj hjf
      · intro j hj hjf
        simp only [getD_set] at hjf
        by_cases hij : i = j
        · subst hij
          exact hz
        · simp only [hij, false_and, if_false] at hjf
          rw [hrem_o j (fun e => hij e.symm)]
          rw [g5] at hjf
          exact inv.rem_zero j hj hjf
      · intro j hj hjf
        simp only [getD_set, lastEnd_append] at hjf ⊢
        by_cases hij : i = j
        · subst hij
          simp only [hil3, hil4, true_and, if_true, and_self]
          constructor
          · ring
          · congr 1; ring
        · simp only [hij, false_and, if_false, if_neg (pid_ne_of_ne i j hij)] at hjf ⊢
          rw [g5] at hjf
          rw [g6, g7, g9]
          exact inv.consist j hj hjf
    · rw [rr_finish_requeue bt at_ i s.t s2 hz]
      refine ⟨m.len_rem, by rw [← inv.len_wt, ← g6], by rw [← inv.len_tat, ← g7],
        m.len_finished, by simp [m.len_inq], ?_, ?_, ?_, ?_, ?_, ?_, ?_, ?_,
        hrem_le, hchain, hbusy, ?_⟩
      · simp only
        rw [g8, g5, inv.done_eq]
      · intro j
        simp only [getD_set, List.mem_append, List.mem_singleton, m.q_mem j]
        by_cases hij : i = j
        · subst hij
          simp [hilq, hi]
        · have hji : ¬ (j = i) := fun e => hij e.symm
          simp only [hij, hji, false_and, if_false, or_false]
      · refine List.nodup_append.2 ⟨m.q_nodup, List.nodup_singleton i, ?_⟩
        intro j hj1 hj2
        rw [List.mem_singleton] at hj2
        subst hj2
        have := ((m.q_mem j).1 hj1).2
        rw [m.i_not_inq] at this
        simp at this
      · intro j hj hjq
        simp only [getD_set] at hjq ⊢
        by_cases hij : i = j
        · subst hij
          exact m.i_unfinished
        · simp only [hij, false_and, if_false] at hjq
          exact m.inq_unfinished j hj hjq
      · intro j hj hjq
        simp only [getD_set] at hjq ⊢
        by_cases hij : i = j
        · subst hij
          exact m.i_arrived
        · simp only [hij, false_and, if_false] at hjq
          exact m.inq_arrived j hj hjq
      · intro j hj hjf hjq
        simp only [getD_set] at hjq ⊢
        by_cases hij : i = j
        · subst hij
          simp [hilq] at hjq
        · simp only [hij, false_and, if_false] at hjq
          exact m.arrived j hj (fun e => hij e.symm) hjf hjq
      · intro j hj hjf
        by_cases hji : j = i
        · subst hji
          rw [hrem_i] at hz ⊢
          omega
        · rw [hrem_o j hji]
          rw [g5] at hjf
          exact inv.rem_pos j hj hjf
      · intro j hj hjf
        have hji : j ≠ i := by
          intro e
          subst e
          rw [m.i_unfinished] at hjf
          simp at hjf
        rw [hrem_o j hji]
        rw [g5] at hjf
        exact inv.rem_zero j hj hjf
      · intro j hj hjf
        have hij : i ≠ j := by
          intro e
          subst e
          rw [m.i_unfinished] at hjf
          simp at hjf
        simp only [lastEnd_append, if_neg (pid_ne_of_ne i j hij)]
        rw [g5] at hjf
        rw [g6, g7, g9]
        exact inv.consist j hj hjf
  · have : (rr_finish bt at_ i s.t s2).rem_bt = s2.rem_bt := by
      unfold rr_finish
      simp only
      split <;> rfl
    rw [this, g3]
    omega

/-! ## Round Robin: initial state, invariant and termination -/

theorem getD_replicate_zero (n i : Nat) : (List.replicate n (0 : Int)).getD i 0 = 0 := by
  by_cases h : i < n <;> simp [List.getD_eq_getElem?_getD, List.getElem?_replicate, h]

theorem next_arrival_nonneg (at_ : List Int) (p : Nat → Bool) (n : Nat)
    (hat : ∀ i, i < n → 0 ≤ at_.getD i 0) : 0 ≤ next_arrival at_ p n := by
  obtain ⟨_, _, h3⟩ := next_arrival_spec at_ p n
  rcases h3 with h3 | ⟨i, hi, _, he⟩
  · rw [h3]; decide
  · rw [← he]; exact hat i hi

theorem rr_init_inv (bt at_ : List Int) (n : Nat) (hin : InRange bt at_ n) :
    RrInv bt at_ n (rr_init bt at_) := by
  have hl := hin.len_bt
  subst hl
  have hn : bt.length ≤ (List.replicate bt.length false).length := by simp
  have hq0 : ∀ j, j ∈ ([] : List Nat) ↔
      (j < bt.length ∧ (List.replicate bt.length false).getD j false = true) := by
    intro j
    simp [getD_replicate_false, -List.getD_eq_getElem?_getD]
  obtain ⟨h1, _, h3⟩ := enqueue_scan_spec (fun i => decide (at_.getD i 0 ≤ 0)) bt.length []
    (List.replicate bt.length false) hn
  have hmem := enqueue_scan_mem (fun i => decide (at_.getD i 0 ≤ 0)) bt.length []
    (List.replicate bt.length false) hn hq0
  have hnd := enqueue_scan_nodup (fun i => decide (at_.getD i 0 ≤ 0)) bt.length []
    (List.replicate bt.length false) hn hq0 List.nodup_nil
  simp only [getD_replicate_false, Bool.false_or] at h3
  simp only [List.length_replicate] at h1
  unfold rr_init
  simp only
  split
  · have hn2 : bt.length ≤ (enqueue_scan (fun i => decide (at_.getD i 0 ≤ 0)) bt.length []
        (List.replicate bt.length false)).2.length := by rw [h1]
    have hN := next_arrival_nonneg at_
      (fun i => !(List.replicate bt.length false).getD i false) bt.length hin.at_nonneg
    generalize next_arrival at_
      (fun i => !(List.replicate bt.length false).getD i false) bt.length = N at hN
    obtain ⟨k1, _, k3⟩ := enqueue_scan_spec (fun i => decide (at_.getD i 0 ≤ N)) bt.length
      (enqueue_scan (fun i => decide (at_.getD i 0 ≤ 0)) bt.length []
        (List.replicate bt.length false)).1 _ hn2
    refine ⟨rfl, by simp, by simp, by simp, by simp only [k1, h1], ?_, ?_, ?_, ?_, ?_, ?_, ?_, ?_,
      ?_, ?_, ?_, ?_⟩
    · simp only [count_replicate_false]
    · exact enqueue_scan_mem _ bt.length _ _ hn2 hmem
    · exact enqueue_scan_nodup _ bt.length _ _ hn2 hmem hnd
    · intro j _ _
      exact getD_replicate_false _ _
    · intro j hj hjq
      simp only [k3 j, h3 j, Bool.or_eq_true, Bool.and_eq_true, decide_eq_true_eq] at hjq ⊢
      rcases hjq with hjq | hjq
      · omega
      · exact hjq.2
    · intro j hj _ hjq
      simp only [k3 j, h3 j, Bool.or_eq_false_iff, Bool.and_eq_false_imp, decide_eq_true_eq,
        decide_eq_false_iff_not] at hjq ⊢
      have := hjq.2 hj
      omega
    · intro j hj _
      exact hin.bt_pos j hj
    · intro j _ hjf
      simp only [getD_replicate_false] at hjf
      exact absurd hjf (by simp)
    · intro j _
      exact le_refl _
    · simp only [List.nil_append, Chained, and_true, true_and]
      exact hN
    · simp [busyTime]
    · intro j _ hjf
      simp only [getD_replicate_false] at hjf
      exact absurd hjf (by simp)
  · refine ⟨rfl, by simp, by simp, by simp, by simp only [h1], ?_, hmem, hnd, ?_, ?_, ?_, ?_, ?_,
      ?_, ?_, ?_, ?_⟩
    · simp only [count_replicate_false]
    · intro j _ _
      exact getD_replicate_false _ _
    · intro j hj hjq
      simp only [h3 j, Bool.and_eq_true, decide_eq_true_eq] at hjq ⊢
      exact hjq.2
    · intro j hj _ hjq
      simp only [h3 j, Bool.and_eq_false_imp, decide_eq_true_eq,
        decide_eq_false_iff_not] at hjq ⊢
      have := hjq hj
      omega
    · intro j hj _
      exact hin.bt_pos j hj
    · intro j _ hjf
      simp only [getD_replicate_false] at hjf
      exact absurd hjf (by simp)
    · intro j _
      exact le_refl _
    · simp only [Chained]
    · simp [busyTime]
    · intro j _ hjf
      simp only [getD_replicate_false] at hjf
      exact absurd hjf (by simp)

theorem rr_rem_nonneg (bt at_ : List Int) (n : Nat) (s : RrState) (inv : RrInv bt at_ n s) :
    0 ≤ s.rem_bt.sum := by
  apply sum_nonneg_of_forall
  intro i hi
  rw [inv.len_rem] at hi
  cases hc : s.finished.getD i false with
  | false =>
    have := inv.rem_pos i hi hc
    omega
  | true =>
    have := inv.rem_zero i hi hc
    omega

theorem rr_body_inv (bt at_ : List Int) (quantum : Int) (hq1 : 1 ≤ quantum) (n : Nat)
    (hin : InRange bt at_ n) (s : RrState) (inv : RrInv bt at_ n s) (hc : s.completed < n) :
    RrInv bt at_ n (rr_body bt at_ quantum n s) ∧
      rr_measure (rr_body bt at_ quantum n s) < rr_measure s := by
  cases hq : s.q with
  | nil =>
    rw [rr_body_nil bt at_ quantum n s hq]
    obtain ⟨h1, h2, h3⟩ := rr_idle_inv bt at_ n s hin inv hq hc
    refine ⟨h1, ?_⟩
    simp only [rr_measure, h3, hq, if_true, if_neg h2]
    omega
  | cons i rest =>
    rw [rr_body_cons bt at_ quantum n s i rest hq]
    obtain ⟨h1, h2⟩ := rr_dispatch_inv bt at_ quantum hq1 n s inv i rest hq
    refine ⟨h1, ?_⟩
    have h3 := rr_rem_nonneg bt at_ n _ h1
    simp only [rr_measure, hq, if_neg (List.cons_ne_nil i rest)]
    generalize (rr_finish bt at_ i s.t
      (rr_units at_ n i (min quantum (s.rem_bt.getD i 0)).toNat (rr_pop s i rest))).rem_bt.sum = A
      at h2 h3
    split <;> omega

theorem rr_terminates (bt at_ : List Int) (quantum : Int) (hq1 : 1 ≤ quantum)
    (hin : InRange bt at_ bt.length) :
    ∃ s, rr_run (2 * bt.sum.toNat + 2) bt at_ quantum = some s := by
  apply while_loop_terminates _ _ (RrInv bt at_ bt.length) rr_measure
  · intro s inv hc
    exact rr_body_inv bt at_ quantum hq1 _ hin s inv (by simpa using hc)
  · exact rr_init_inv bt at_ _ hin
  · have : (rr_init bt at_).rem_bt = bt := by
      unfold rr_init
      simp only
      split <;> rfl
    simp only [rr_measure, this]
    split <;> omega

/-- What holds of the final state of the Round Robin loop. -/
theorem rr_final (bt at_ : List Int) (quantum : Int) (hq1 : 1 ≤ quantum)
    (hin : InRange bt at_ bt.length) (fuel : Nat) (s : RrState)
    (h : rr_run fuel bt at_ quantum = some s) :
    RrInv bt at_ bt.length s ∧ ∀ i, i < bt.length → s.finished.getD i false = true := by
  have := while_loop_invariant _ _ (RrInv bt at_ bt.length)
    (fun s inv hc => (rr_body_inv bt at_ quantum hq1 _ hin s inv (by simpa using hc)).1) fuel _ s
    (rr_init_inv bt at_ _ hin) h
  obtain ⟨inv, hc⟩ := this
  refine ⟨inv, ?_⟩
  intro i hi
  apply all_true_of_count_ge
  · rw [← inv.done_eq, inv.len_finished]
    simpa using hc
  · rw [inv.len_finished]; exact hi

/-! ## Summaries of the four algorithms -/

theorem getD_mem_of_lt (l : List Int) (i : Nat) (h : i < l.length) : l.getD i 0 ∈ l := by
  rw [List.getD_eq_getElem _ _ h]
  exact List.getElem_mem _

theorem inRange_of (bt at_ : List Int) (hlen : at_.length = bt.length)
    (hat : ∀ a, a ∈ at_ → 0 ≤ a ∧ a ≤ INT_MAX) (hbt : ∀ b, b ∈ bt → 1 ≤ b) :
    InRange bt at_ bt.length :=
  ⟨rfl, hlen,
    fun i hi => (hat _ (getD_mem_of_lt at_ i (by omega))).1,
    fun i hi => (hat _ (getD_mem_of_lt at_ i (by omega))).2,
    fun i hi => hbt _ (getD_mem_of_lt bt i hi)⟩

theorem srt_diverges_zero_burst (fuel : Nat) : srt_run fuel [0] [0] = none := by
  apply while_loop_diverges _ _
    (fun s => s.processes_done = 0 ∧ s.completed = [false] ∧ 0 ≤ s.current_time ∧
      ∃ r, s.rem_bt = [r] ∧ r ≤ 0)
  · intro s hs
    obtain ⟨h1, h2, h3, r, h4, h5⟩ := hs
    have hsel : (select_best s.rem_bt [0] s.completed s.current_time 1).1 = some 0 := by
      have hr : r < INT_MAX := lt_of_le_of_lt h5 (by decide)
      rw [h2, h4]
      simp [select_best, List.range_succ, h3, hr]
    rw [List.length_singleton, srt_body_some _ _ _ s 0 hsel]
    have hne : ¬ ((s.rem_bt.set 0 (s.rem_bt.getD 0 0 - 1)).getD 0 0 = 0) := by
      rw [h4]
      simp only [List.set_cons_zero, List.getD_cons_zero]
      omega
    rw [if_neg hne]
    refine ⟨⟨h1, h2, by simp only; omega, r - 1, ?_, by omega⟩, by simp [h1]⟩
    simp only [h4, List.set_cons_zero, List.getD_cons_zero]
  · exact ⟨rfl, rfl, le_refl _, 0, rfl, le_refl _⟩

/-! ## Conservation, consistency and timeline ordering -/

theorem rr_deterministic (bt at_ : List Int) (quantum : Int) (f1 f2 : Nat) (r1 r2 : SchedResult)
    (h1 : rr_findavgTime f1 bt at_ quantum = some r1)
    (h2 : rr_findavgTime f2 bt at_ quantum = some r2) : r1 = r2 := by
  simp only [rr_findavgTime, Option.map_eq_some'] at h1 h2
  obtain ⟨s1, hs1, rfl⟩ := h1
  obtain ⟨s2, hs2, rfl⟩ := h2
  rw [while_loop_deterministic _ _ f1 f2 _ s1 s2 hs1 hs2]

theorem srt_deterministic (bt at_ : List Int) (f1 f2 : Nat) (r1 r2 : SchedResult)
    (h1 : srt_findavgTime f1 bt at_ = some r1)
    (h2 : srt_findavgTime f2 bt at_ = some r2) : r1 = r2 := by
  simp only [srt_findavgTime, Option.map_eq_some'] at h1 h2
  obtain ⟨s1, hs1, rfl⟩ := h1
  obtain ⟨s2, hs2, rfl⟩ := h2
  rw [while_loop_deterministic _ _ f1 f2 _ s1 s2 hs1 hs2]

/-! ## Termination on a zero burst, the scenarios and the empty process set -/

/-- C4: on arrivals `[0]`, bursts `[0]` (non-negative, as the input contract allows) the
loop of `srt_findavgTime` never reaches `processes_done == n`: whatever the fuel, the
function returns nothing. -/
theorem srt_zero_burst_never_returns :
    (∀ a, a ∈ [(0 : Int)] → 0 ≤ a) ∧ ∀ fuel, srt_findavgTime fuel [0] [0] = none := by
  refine ⟨by decide, ?_⟩
  intro fuel
  simp only [srt_findavgTime, srt_diverges_zero_burst, Option.map_none']

/-- C5, amended: on arrivals `[0,1,2]`, bursts `[5,3,2]` `fcfs_findavgTime` computes
waiting times `[0,4,6]` and turnaround times `[5,7,8]`; the total waiting time is 10 and
the average waiting time is 10/3. -/
theorem fcfs_scenario_A :
    (fcfs_findavgTime [5, 3, 2] [0, 1, 2]).wt = [0, 4, 6] ∧
    (fcfs_findavgTime [5, 3, 2] [0, 1, 2]).tat = [5, 7, 8] ∧
    total_wt (fcfs_findavgTime [5, 3, 2] [0, 1, 2]) = 10 ∧
    (total_wt (fcfs_findavgTime [5, 3, 2] [0, 1, 2]) : ℚ) / 3 = 10 / 3 := by
  have h : total_wt (fcfs_findavgTime [5, 3, 2] [0, 1, 2]) = 10 := by decide
  refine ⟨by decide, by decide, h, ?_⟩
  rw [h]
  norm_num

/-- C5 as stated fails: the waiting times are not `[0,4,5]`, the turnaround times are not
`[5,7,7]` and the average waiting time is not 3. -/
theorem fcfs_scenario_A_as_stated_fails :
    (fcfs_findavgTime [5, 3, 2] [0, 1, 2]).wt ≠ [0, 4, 5] ∧
    (fcfs_findavgTime [5, 3, 2] [0, 1, 2]).tat ≠ [5, 7, 7] ∧
    (total_wt (fcfs_findavgTime [5, 3, 2] [0, 1, 2]) : ℚ) / 3 ≠ 3 := by
  have h : total_wt (fcfs_findavgTime [5, 3, 2] [0, 1, 2]) = 10 := by decide
  refine ⟨by decide, by decide, ?_⟩
  rw [h]
  norm_num

/-- C6, amended: in the timeline of `srt_findavgTime` on arrivals `[0,1,2]`, bursts
`[8,4,1]`, process 2 preempts process 1 at time 1 and process 3 preempts process 2 at
time 2: the segment ending at time 2 has `process_id` 2, the segment starting at time 2
has `process_id` 3, and after the two loop iterations that bring the clock to 2 the
remaining times are 7, 3 and 1 (process 1 has run 1 unit, in [0,1]). -/
theorem srt_scenario_D :
    Returns (fun fuel => srt_findavgTime fuel [8, 4, 1] [0, 1, 2]) (fun r =>
      (r.timeline.filter (fun s => s.end_time = 2)).map (fun s => s.process_id) = [2] ∧
      (r.timeline.filter (fun s => s.start_time = 2)).map (fun s => s.process_id) = [3] ∧
      (r.timeline.filter (fun s => s.end_time = 1)).map (fun s => s.process_id) = [1] ∧
      remaining_at [8, 4, 1] r.timeline 0 2 = 7 ∧
      r.wt = [5, 1, 0] ∧ r.tat = [13, 5, 1]) ∧
    (srt_body [8, 4, 1] [0, 1, 2] 3
      (srt_body [8, 4, 1] [0, 1, 2] 3 (srt_init [8, 4, 1]))).current_time = 2 ∧
    (srt_body [8, 4, 1] [0, 1, 2] 3
      (srt_body [8, 4, 1] [0, 1, 2] 3 (srt_init [8, 4, 1]))).rem_bt = [7, 3, 1] := by
  have h : srt_findavgTime 14 [8, 4, 1] [0, 1, 2] = some ⟨[5, 1, 0], [13, 5, 1],
      [⟨1, 0, 1⟩, ⟨2, 1, 2⟩, ⟨3, 2, 3⟩, ⟨2, 3, 4⟩, ⟨2, 4, 5⟩, ⟨2, 5, 6⟩, ⟨1, 6, 7⟩, ⟨1, 7, 8⟩,
        ⟨1, 8, 9⟩, ⟨1, 9, 10⟩, ⟨1, 10, 11⟩, ⟨1, 11, 12⟩, ⟨1, 12, 13⟩]⟩ := by decide
  refine ⟨⟨⟨14, _, h⟩, ?_⟩, by decide, by decide⟩
  intro fuel r hr
  rw [srt_deterministic _ _ _ _ _ _ hr h]
  decide

/-- C6 as stated fails: no run of `srt_findavgTime` on arrivals `[0,1,2]`, bursts `[8,4,1]`
has process 1 in the segment ending at time 2, nor leaves process 1 with remaining time 6
at time 2. -/
theorem srt_scenario_D_as_stated_fails :
    ¬ ∃ fuel r, srt_findavgTime fuel [8, 4, 1] [0, 1, 2] = some r ∧
      ((r.timeline.filter (fun s => s.end_time = 2)).map (fun s => s.process_id) = [1] ∨
        remaining_at [8, 4, 1] r.timeline 0 2 = 6) := by
  have h : srt_findavgTime 14 [8, 4, 1] [0, 1, 2] = some ⟨[5, 1, 0], [13, 5, 1],
      [⟨1, 0, 1⟩, ⟨2, 1, 2⟩, ⟨3, 2, 3⟩, ⟨2, 3, 4⟩, ⟨2, 4, 5⟩, ⟨2, 5, 6⟩, ⟨1, 6, 7⟩, ⟨1, 7, 8⟩,
        ⟨1, 8, 9⟩, ⟨1, 9, 10⟩, ⟨1, 10, 11⟩, ⟨1, 11, 12⟩, ⟨1, 12, 13⟩]⟩ := by decide
  rintro ⟨fuel, r, hr, hbad⟩
  rw [srt_deterministic _ _ _ _ _ _ hr h] at hbad
  revert hbad
  decide

/-- C10: the timeline of `rr_findavgTime` with quantum 2 on arrivals `[0,1,2]`, bursts
`[5,3,2]` begins with the segments (1, 0, 2), (2, 2, 4), (3, 4, 6). -/
theorem rr_scenario_B :
    Returns (fun fuel => rr_findavgTime fuel [5, 3, 2] [0, 1, 2] 2) (fun r =>
      r.timeline.take 3 = [⟨1, 0, 2⟩, ⟨2, 2, 4⟩, ⟨3, 4, 6⟩]) := by
  have h : rr_findavgTime 7 [5, 3, 2] [0, 1, 2] 2 = some ⟨[5, 5, 2], [10, 8, 4],
      [⟨1, 0, 2⟩, ⟨2, 2, 4⟩, ⟨3, 4, 6⟩, ⟨1, 6, 8⟩, ⟨2, 8, 9⟩, ⟨1, 9, 10⟩]⟩ := by decide
  refine ⟨⟨7, _, h⟩, ?_⟩
  intro fuel r hr
  rw [rr_deterministic _ _ _ _ _ _ _ hr h]
  decide

/-! ## FCFS dispatch order -/

theorem execTime_nil (pid : Int) : execTime [] pid = 0 := rfl

theorem execTime_cons (x : Timeline) (tl : List Timeline) (pid : Int) :
    execTime (x :: tl) pid =
      (if x.process_id = pid then x.end_time - x.start_time else 0) + execTime tl pid := by
  unfold execTime
  by_cases h : x.process_id = pid <;> simp [List.filter_cons, h]

theorem execTime_append (l1 l2 : List Timeline) (pid : Int) :
    execTime (l1 ++ l2) pid = execTime l1 pid + execTime l2 pid := by
  unfold execTime
  simp [List.filter_append]

theorem execTime_append_one (tl : List Timeline) (x : Timeline) (pid : Int) :
    execTime (tl ++ [x]) pid =
      execTime tl pid + (if x.process_id = pid then x.end_time - x.start_time else 0) := by
  rw [execTime_append, execTime_cons, execTime_nil, add_zero]

theorem execTime_eq_zero (tl : List Timeline) (pid : Int)
    (h : ∀ x, x ∈ tl → x.process_id ≠ pid) : execTime tl pid = 0 := by
  induction tl with
  | nil => rfl
  | cons x tl ih =>
    rw [execTime_cons, if_neg (h x (List.mem_cons_self _ _)),
      ih (fun y hy => h y (List.mem_cons_of_mem _ hy))]
    rfl

theorem remaining_at_nil (bt : List Int) (p : Nat) (t : Int) :
    remaining_at bt [] p t = bt.getD p 0 := by
  simp [remaining_at]

theorem remaining_at_cons (bt : List Int) (x : Timeline) (tl : List Timeline) (p : Nat)
    (t : Int) :
    remaining_at bt (x :: tl) p t =
      remaining_at bt tl p t -
        (if x.process_id = (p : Int) + 1 ∧ x.end_time ≤ t then x.end_time - x.start_time
          else 0) := by
  unfold remaining_at
  by_cases h : x.process_id = (p : Int) + 1 ∧ x.end_time ≤ t
  · rw [if_pos h, List.filter_cons_of_pos (by simpa using h)]
    simp only [List.map_cons, List.sum_cons]
    ring
  · rw [if_neg h, List.filter_cons_of_neg (by simpa using h)]
    ring

theorem remaining_at_append_one (bt : List Int) (tl : List Timeline) (x : Timeline) (p : Nat)
    (t : Int) :
    remaining_at bt (tl ++ [x]) p t =
      remaining_at bt tl p t -
        (if x.process_id = (p : Int) + 1 ∧ x.end_time ≤ t then x.end_time - x.start_time
          else 0) := by
  induction tl with
  | nil => rw [List.nil_append, remaining_at_cons]
  | cons y tl ih =>
    rw [List.cons_append, remaining_at_cons, remaining_at_cons, ih]
    ring

theorem remaining_at_of_all_le (bt : List Int) (tl : List Timeline) (p : Nat) (t : Int)
    (h : ∀ x, x ∈ tl → x.end_time ≤ t) :
    remaining_at bt tl p t = bt.getD p 0 - execTime tl ((p : Int) + 1) := by
  induction tl with
  | nil => rw [remaining_at_nil, execTime_nil]; ring
  | cons x tl ih =>
    rw [remaining_at_cons, execTime_cons, ih (fun y hy => h y (List.mem_cons_of_mem _ hy))]
    have hx := h x (List.mem_cons_self _ _)
    by_cases hp : x.process_id = (p : Int) + 1
    · rw [if_pos ⟨hp, hx⟩, if_pos hp]; ring
    · rw [if_neg (fun e => hp e.1), if_neg hp]; ring

theorem chained_end_le (a b : Int) (tl : List Timeline) (h : Chained a tl b) (x : Timeline)
    (hx : x ∈ tl) : x.end_time ≤ b := by
  induction tl generalizing a with
  | nil => simp at hx
  | cons y tl ih =>
    obtain ⟨h1, h2, h3⟩ := h
    rcases List.mem_cons.1 hx with rfl | hx
    · exact chained_le _ _ _ h3
    · exact ih _ h3 hx

theorem lastEnd_nil (pid : Int) : lastEnd [] pid = none := rfl

theorem lastEnd_mem (tl : List Timeline) (pid c : Int) (h : lastEnd tl pid = some c) :
    ∃ x, x ∈ tl ∧ x.process_id = pid ∧ x.end_time = c := by
  unfold lastEnd at h
  rw [Option.map_eq_some'] at h
  obtain ⟨x, hx, rfl⟩ := h
  have := List.mem_of_getLast?_eq_some hx
  rw [List.mem_filter] at this
  exact ⟨x, this.1, by simpa using this.2, rfl⟩

theorem lastEnd_eq_none (tl : List Timeline) (pid : Int)
    (h : ∀ x, x ∈ tl → x.process_id ≠ pid) : lastEnd tl pid = none := by
  cases hl : lastEnd tl pid with
  | none => rfl
  | some c =>
    obtain ⟨x, hx, hp, _⟩ := lastEnd_mem tl pid c hl
    exact absurd hp (h x hx)

theorem lastEnd_le (a b : Int) (tl : List Timeline) (h : Chained a tl b) (pid c : Int)
    (hl : lastEnd tl pid = some c) : c ≤ b := by
  obtain ⟨x, hx, _, rfl⟩ := lastEnd_mem tl pid c hl
  exact chained_end_le a b tl h x hx

/-! ## Idle segments while a timeline is built -/

theorem completedBy_append_other (tl : List Timeline) (x : Timeline) (j : Nat) (s : Int)
    (h : x.process_id ≠ (j : Int) + 1) :
    CompletedBy (tl ++ [x]) j s ↔ CompletedBy tl j s := by
  unfold CompletedBy
  rw [lastEnd_append, if_neg h]

theorem idleInv_append_idle (at_ : List Int) (n : Nat) (done : Nat → Prop)
    (tl : List Timeline) (s e : Int) (inv : IdleInv at_ n done tl) (hse : s < e)
    (hall : ∀ j, j < n → (done j ∧ CompletedBy tl j s) ∨ e ≤ at_.getD j 0)
    (hex : ∃ j, j < n ∧ at_.getD j 0 = e) :
    IdleInv at_ n done (tl ++ [⟨0, s, e⟩]) := by
  intro seg hseg hp
  have hne : ∀ j : Nat, (⟨0, s, e⟩ : Timeline).process_id ≠ (j : Int) + 1 := by
    intro j
    simp only
    omega
  rcases List.mem_append.1 hseg with hseg | hseg
  · obtain ⟨h1, h2, h3⟩ := inv seg hseg hp
    refine ⟨h1, ?_, h3⟩
    intro j hj
    rcases h2 j hj with ⟨hd, hc⟩ | h
    · exact Or.inl ⟨hd, (completedBy_append_other tl _ j _ (hne j)).2 hc⟩
    · exact Or.inr h
  · rw [List.mem_singleton] at hseg
    subst hseg
    refine ⟨hse, ?_, hex⟩
    intro j hj
    rcases hall j hj with ⟨hd, hc⟩ | h
    · exact Or.inl ⟨hd, (completedBy_append_other tl _ j _ (hne j)).2 hc⟩
    · exact Or.inr h

theorem idleInv_append_busy (at_ : List Int) (n : Nat) (done done2 : Nat → Prop)
    (tl : List Timeline) (i : Nat) (a b : Int) (inv : IdleInv at_ n done tl)
    (hi : ¬ done i) (hmono : ∀ j, done j → done2 j) :
    IdleInv at_ n done2 (tl ++ [⟨(i : Int) + 1, a, b⟩]) := by
  intro seg hseg hp
  rcases List.mem_append.1 hseg with hseg | hseg
  · obtain ⟨h1, h2, h3⟩ := inv seg hseg hp
    refine ⟨h1, ?_, h3⟩
    intro j hj
    rcases h2 j hj with ⟨hd, hc⟩ | h
    · refine Or.inl ⟨hmono j hd, (completedBy_append_other tl _ j _ ?_).2 hc⟩
      simp only
      intro e
      have : i = j := by omega
      subst this
      exact hi hd
    · exact Or.inr h
  · rw [List.mem_singleton] at hseg
    subst hseg
    simp only at hp
    omega

theorem idleInv_mono (at_ : List Int) (n : Nat) (done done2 : Nat → Prop)
    (tl : List Timeline) (inv : IdleInv at_ n done tl) (hmono : ∀ j, done j → done2 j) :
    IdleInv at_ n done2 tl := by
  intro seg hseg hp
  obtain ⟨h1, h2, h3⟩ := inv seg hseg hp
  refine ⟨h1, ?_, h3⟩
  intro j hj
  rcases h2 j hj with ⟨hd, hc⟩ | h
  · exact Or.inl ⟨hmono j hd, hc⟩
  · exact Or.inr h

theorem getElem?_append_one {α : Type} (l : List α) (x y : α) (k : Nat) :
    (l ++ [x])[k]? = some y ↔ (l[k]? = some y ∨ (k = l.length ∧ y = x)) := by
  by_cases hk : k < l.length
  · rw [List.getElem?_append_left hk]
    constructor
    · exact fun h => Or.inl h
    · rintro (h | ⟨h, _⟩)
      · exact h
      · omega
  · rw [List.getElem?_append_right (by omega)]
    have hnone : l[k]? = none := List.getElem?_eq_none (by omega)
    by_cases hk2 : k = l.length
    · subst hk2
      simp [hnone, eq_comm]
    · have : k - l.length ≠ 0 := by omega
      obtain ⟨m, hm⟩ := Nat.exists_eq_succ_of_ne_zero this
      rw [hm]
      simp [hnone, hk2]

theorem busySegments_append_one (tl : List Timeline) (x : Timeline) :
    busySegments (tl ++ [x]) = busySegments tl ++ (if x.process_id = 0 then [] else [x]) := by
  unfold busySegments
  by_cases h : x.process_id = 0 <;> simp [List.filter_append, List.filter_cons, h]

theorem busySegments_mem (tl : List Timeline) (x : Timeline) :
    x ∈ busySegments tl ↔ (x ∈ tl ∧ x.process_id ≠ 0) := by
  unfold busySegments
  simp [List.mem_filter]

theorem getLast?_eq_getElem?_pred {α : Type} (l : List α) (k : Nat) (x : α)
    (hk : k + 1 = l.length) (h : l[k]? = some x) : l.getLast? = some x := by
  rw [List.getLast?_eq_getElem?]
  have : l.length - 1 = k := by omega
  rw [this, h]

theorem remaining_at_of_pid_le (bt : List Int) (tl : List Timeline) (p : Nat) (t : Int)
    (h : ∀ x, x ∈ tl → x.process_id = (p : Int) + 1 → x.end_time ≤ t) :
    remaining_at bt tl p t = bt.getD p 0 - execTime tl ((p : Int) + 1) := by
  induction tl with
  | nil => rw [remaining_at_nil, execTime_nil]; ring
  | cons x tl ih =>
    rw [remaining_at_cons, execTime_cons, ih (fun y hy => h y (List.mem_cons_of_mem _ hy))]
    by_cases hp : x.process_id = (p : Int) + 1
    · rw [if_pos ⟨hp, h x (List.mem_cons_self _ _) hp⟩, if_pos hp]; ring
    · rw [if_neg (fun e => hp e.1), if_neg hp]; ring

theorem remaining_at_append_later (bt : List Int) (tl : List Timeline) (x : Timeline) (p : Nat)
    (t : Int) (h : x.process_id = 0 ∨ t < x.end_time) :
    remaining_at bt (tl ++ [x]) p t = remaining_at bt tl p t := by
  rw [remaining_at_append_one, if_neg, sub_zero]
  rintro ⟨h1, h2⟩
  rcases h with h | h
  · omega
  · omega

/-! ## Round Robin: arrivals during a dispatch -/

theorem range_filter_pairwise_lt (n : Nat) (p : Nat → Bool) :
    ((List.range n).filter p).Pairwise (fun a b => a < b) :=
  (List.pairwise_lt_range n).filter p

/-- After `k` iterations of the loop `for unit` the queue has grown by the processes that
arrived during these `k` time units, in ascending (arrival time, index) order. -/
theorem rr_units_arrivals (at_ : List Int) (n i k : Nat) (s : RrState) (m : RrMid at_ n i s)
    (hfin : ∀ j, j < n → s.finished.getD j false = true → at_.getD j 0 ≤ s.t) :
    ∃ arrivals, (rr_units at_ n i k s).q = s.q ++ arrivals ∧
      (∀ j, j ∈ arrivals ↔ (j < n ∧ s.t < at_.getD j 0 ∧ at_.getD j 0 ≤ s.t + k)) ∧
      arrivals.Pairwise (arrivalBefore at_) := by
  induction k with
  | zero =>
    refine ⟨[], by simp [rr_units], ?_, List.Pairwise.nil⟩
    intro j
    simp only [List.not_mem_nil, false_iff, Nat.cast_zero, add_zero]
    omega
  | succ k ih =>
    obtain ⟨A, hq, hmem, hpw⟩ := ih
    obtain ⟨g1, g2, _, _, g5, _⟩ := rr_units_spec at_ n i k s m
    rw [rr_units_succ]
    have hn : n ≤ (rr_units at_ n i k s).in_queue.length := by rw [g1.len_inq]
    obtain ⟨_, h2, _⟩ := enqueue_scan_spec
      (fun j => !(rr_units at_ n i k s).finished.getD j false &&
        decide (at_.getD j 0 = (rr_units at_ n i k s).t + 1)) n
      (rr_units at_ n i k s).q (rr_units at_ n i k s).in_queue hn
    have hBmem : ∀ j, j ∈ (List.range n).filter (fun j =>
        (!(rr_units at_ n i k s).finished.getD j false &&
          decide (at_.getD j 0 = (rr_units at_ n i k s).t + 1)) &&
        !(rr_units at_ n i k s).in_queue.getD j false) ↔
        (j < n ∧ at_.getD j 0 = s.t + k + 1) := by
      intro j
      rw [List.mem_filter, List.mem_range, g2, g5]
      constructor
      · rintro ⟨hj, hc⟩
        simp only [Bool.and_eq_true, Bool.not_eq_true', decide_eq_true_eq] at hc
        exact ⟨hj, hc.1.2⟩
      · rintro ⟨hj, ha⟩
        refine ⟨hj, ?_⟩
        simp only [Bool.and_eq_true, Bool.not_eq_true', decide_eq_true_eq]
        refine ⟨⟨?_, ha⟩, ?_⟩
        · cases hf : s.finished.getD j false with
          | false => rfl
          | true =>
            have := hfin j hj hf
            omega
        · cases hq2 : (rr_units at_ n i k s).in_queue.getD j false with
          | false => rfl
          | true =>
            have := g1.inq_arrived j hj hq2
            rw [g2] at this
            omega
    refine ⟨A ++ (List.range n).filter (fun j =>
        (!(rr_units at_ n i k s).finished.getD j false &&
          decide (at_.getD j 0 = (rr_units at_ n i k s).t + 1)) &&
        !(rr_units at_ n i k s).in_queue.getD j false), ?_, ?_, ?_⟩
    · have e : (rr_unit at_ n i (rr_units at_ n i k s)).q = (enqueue_scan
          (fun j => !(rr_units at_ n i k s).finished.getD j false &&
            decide (at_.getD j 0 = (rr_units at_ n i k s).t + 1)) n
          (rr_units at_ n i k s).q (rr_units at_ n i k s).in_queue).1 := rfl
      rw [e, h2, hq, List.append_assoc]
    · intro j
      rw [List.mem_append, hmem j, hBmem j]
      push_cast
      constructor
      · rintro (h | h)
        · exact ⟨h.1, h.2.1, by omega⟩
        · exact ⟨h.1, by omega, by omega⟩
      · rintro ⟨h1, h2, h3⟩
        by_cases h4 : at_.getD j 0 ≤ s.t + k
        · exact Or.inl ⟨h1, h2, h4⟩
        · exact Or.inr ⟨h1, by omega⟩
    · refine List.pairwise_append.2 ⟨hpw, ?_, ?_⟩
      · refine (range_filter_pairwise_lt n _).imp_of_mem ?_
        intro a b ha hb hab
        have ha2 := ((hBmem a).1 ha).2
        have hb2 := ((hBmem b).1 hb).2
        right
        exact ⟨by omega, hab⟩
      · intro a ha b hb
        have ha2 := ((hmem a).1 ha).2.2
        have hb2 := ((hBmem b).1 hb).2
        left
        omega

theorem rr_finish_fields (bt at_ : List Int) (i : Nat) (start : Int) (s2 : RrState)
    (hi : i < s2.finished.length) :
    (rr_finish bt at_ i start s2).timeline = s2.timeline ++ [⟨(i : Int) + 1, start, s2.t⟩] ∧
    (rr_finish bt at_ i start s2).queue_states = s2.queue_states ∧
    (rr_finish bt at_ i start s2).t = s2.t ∧
    (rr_finish bt at_ i start s2).rem_bt = s2.rem_bt ∧
    (∀ j, s2.finished.getD j false = true →
      (rr_finish bt at_ i start s2).finished.getD j false = true) ∧
    (∀ j, j ≠ i →
      (rr_finish bt at_ i start s2).finished.getD j false = s2.finished.getD j false) ∧
    ((rr_finish bt at_ i start s2).finished.getD i false = false →
      (rr_finish bt at_ i start s2).q = s2.q ++ [i]) := by
  by_cases hz : s2.rem_bt.getD i 0 = 0
  · rw [rr_finish_done bt at_ i start s2 hz]
    refine ⟨rfl, rfl, rfl, rfl, ?_, ?_, ?_⟩
    · intro j hj
      simp only [getD_set]
      split
      · rfl
      · exact hj
    · intro j hj
      simp only [getD_set_other _ _ _ _ _ (fun e => hj e.symm)]
    · intro h
      simp only [getD_set_self _ _ _ _ hi] at h
      cases h
  · rw [rr_finish_requeue bt at_ i start s2 hz]
    exact ⟨rfl, rfl, rfl, rfl, fun j hj => hj, fun j _ => rfl, fun _ => rfl⟩

/-- What a dispatch (the branch of the loop body with a non-empty queue) does to the
state. -/
theorem rr_dispatch_facts (bt at_ : List Int) (quantum : Int) (hq1 : 1 ≤ quantum) (n : Nat)
    (s : RrState) (inv : RrInv bt at_ n s)
    (hfin : ∀ j, j < n → s.finished.getD j false = true → at_.getD j 0 ≤ s.t)
    (i : Nat) (rest : List Nat) (hq : s.q = i :: rest) :
    ∃ k : Int, 1 ≤ k ∧ k = min quantum (s.rem_bt.getD i 0) ∧
      (rr_body bt at_ quantum n s).timeline =
        s.timeline ++ [⟨(i : Int) + 1, s.t, s.t + k⟩] ∧
      (rr_body bt at_ quantum n s).queue_states =
        s.queue_states ++ [⟨s.t, getQueueContents s.q, 0⟩] ∧
      (rr_body bt at_ quantum n s).t = s.t + k ∧
      (∀ j, (rr_body bt at_ quantum n s).rem_bt.getD j 0 =
        if j = i then s.rem_bt.getD j 0 - k else s.rem_bt.getD j 0) ∧
      (∀ j, s.finished.getD j false = true →
        (rr_body bt at_ quantum n s).finished.getD j false = true) ∧
      (∀ j, j ≠ i →
        (rr_body bt at_ quantum n s).finished.getD j false = s.finished.getD j false) ∧
      ((rr_body bt at_ quantum n s).finished.getD i false = false →
        ∃ arrivals, (rr_body bt at_ quantum n s).q = rest ++ arrivals ++ [i] ∧
          (∀ j, j ∈ arrivals ↔ (j < n ∧ s.t < at_.getD j 0 ∧ at_.getD j 0 ≤ s.t + k)) ∧
          arrivals.Pairwise (arrivalBefore at_)) := by
  obtain ⟨hi, hiq, hif, hia, hir, hnr⟩ := rr_front bt at_ n s inv i rest hq
  have mid := rr_pop_mid bt at_ n s inv i rest hq
  obtain ⟨m, g2, _, g4, g5, _, _, _, g9, g10⟩ :=
    rr_units_spec at_ n i (min quantum (s.rem_bt.getD i 0)).toNat (rr_pop s i rest) mid
  obtain ⟨A, a1, a2, a3⟩ :=
    rr_units_arrivals at_ n i (min quantum (s.rem_bt.getD i 0)).toNat (rr_pop s i rest) mid hfin
  have hk : ((min quantum (s.rem_bt.getD i 0)).toNat : Int) = min quantum (s.rem_bt.getD i 0) :=
    Int.toNat_of_nonneg (by omega)
  rw [hk] at g2 g4 a2
  rw [rr_body_cons bt at_ quantum n s i rest hq]
  generalize rr_units at_ n i (min quantum (s.rem_bt.getD i 0)).toNat (rr_pop s i rest) = s2
    at m g2 g4 g5 g9 g10 a1 a2
  have e1 : (rr_pop s i rest).t = s.t := rfl
  have e2 : (rr_pop s i rest).rem_bt = s.rem_bt := rfl
  have e3 : (rr_pop s i rest).finished = s.finished := rfl
  have e7 : (rr_pop s i rest).timeline = s.timeline := rfl
  have e8 : (rr_pop s i rest).queue_states =
      s.queue_states ++ [⟨s.t, getQueueContents s.q, 0⟩] := rfl
  have e9 : (rr_pop s i rest).q = rest := rfl
  rw [e1] at g2 a2
  rw [e2] at g4
  rw [e3] at g5
  rw [e7] at g9
  rw [e8] at g10
  rw [e9] at a1
  have hil : i < s2.finished.length := by rw [m.len_finished]; exact hi
  obtain ⟨f1, f2, f3, f4, f5, f6, f7⟩ := rr_finish_fields bt at_ i s.t s2 hil
  refine ⟨min quantum (s.rem_bt.getD i 0), by omega, rfl, ?_, ?_, ?_, ?_, ?_, ?_, ?_⟩
  · rw [f1, g9, g2]
  · rw [f2, g10]
  · rw [f3, g2]
  · intro j
    rw [f4, g4 j]
  · intro j hj
    exact f5 j (by rw [g5]; exact hj)
  · intro j hj
    rw [f6 j hj, g5]
  · intro h
    exact ⟨A, by rw [f7 h, a1], a2, a3⟩

/-- What the idle branch of the loop body does to the state. -/
theorem rr_idle_facts (bt at_ : List Int) (quantum : Int) (n : Nat) (s : RrState)
    (hin : InRange bt at_ n) (inv : RrInv bt at_ n s) (hq : s.q = [])
    (hc : s.completed < n) :
    ∃ e : Int, s.t < e ∧ (∃ j, j < n ∧ at_.getD j 0 = e) ∧
      (∀ j, j < n → s.finished.getD j false = false → e ≤ at_.getD j 0) ∧
      (rr_body bt at_ quantum n s).timeline = s.timeline ++ [⟨0, s.t, e⟩] ∧
      (rr_body bt at_ quantum n s).queue_states = s.queue_states ∧
      (rr_body bt at_ quantum n s).t = e ∧
      (rr_body bt at_ quantum n s).rem_bt = s.rem_bt ∧
      (rr_body bt at_ quantum n s).finished = s.finished := by
  obtain ⟨i, hi, hif, hiq, hit, he⟩ := rr_idle_target bt at_ n s hin inv hq hc
  rw [rr_body_nil bt at_ quantum n s hq]
  have hinq : ∀ j, j < n → s.in_queue.getD j false = false := by
    intro j hj
    cases h : s.in_queue.getD j false with
    | false => rfl
    | true =>
      have := (inv.q_mem j).2 ⟨hj, h⟩
      rw [hq] at this
      simp at this
  refine ⟨next_arrival at_ (fun i => !s.finished.getD i false && !s.in_queue.getD i false) n,
    by omega, ⟨i, hi, he⟩, ?_, rfl, rfl, ?_, rfl, rfl⟩
  · intro j hj hjf
    exact (next_arrival_spec at_ _ n).2.1 j hj
      (by simp only [hjf, hinq j hj, Bool.not_false, Bool.and_self])
  · show max s.t _ = _
    exact max_eq_right (by omega)

theorem rr_completedBy (bt at_ : List Int) (n : Nat) (s : RrState) (inv : RrInv bt at_ n s)
    (j : Nat) (hj : j < n) (hc : s.finished.getD j false = true) :
    CompletedBy s.timeline j s.t := by
  obtain ⟨_, h2⟩ := inv.consist j hj hc
  exact ⟨_, h2, lastEnd_le 0 _ _ inv.chain _ _ h2⟩

theorem queueExact_append_later (bt at_ : List Int) (n : Nat) (tl : List Timeline)
    (x : Timeline) (snap : QueueState) (h : QueueExact bt at_ n tl snap)
    (hx : x.process_id = 0 ∨ snap.time < x.end_time) :
    QueueExact bt at_ n (tl ++ [x]) snap := by
  obtain ⟨h1, h2, h3⟩ := h
  refine ⟨h1, h2, ?_⟩
  intro j hj
  rw [remaining_at_append_later bt tl x j _ hx]
  exact h3 j hj

theorem rr_idle_hist (bt at_ : List Int) (quantum : Int) (n : Nat) (s : RrState)
    (hin : InRange bt at_ n) (inv : RrInv bt at_ n s) (hist : RrHist bt at_ quantum n s)
    (hq : s.q = []) (hc : s.completed < n) :
    RrHist bt at_ quantum n (rr_body bt at_ quantum n s) := by
  obtain ⟨e, h1, h2, h3, f1, f2, f3, f4, f5⟩ := rr_idle_facts bt at_ quantum n s hin inv hq hc
  have hne : ∀ j : Nat, ¬ ((0 : Int) = (j : Int) + 1) := fun j => by omega
  have hbusy : busySegments (s.timeline ++ [⟨0, s.t, e⟩]) = busySegments s.timeline := by
    rw [busySegments_append_one]
    simp
  refine ⟨?_, ?_, ?_, ?_, ?_, ?_, ?_, ?_, ?_, ?_, ?_⟩
  · rw [f1]
    intro seg hseg
    rcases List.mem_append.1 hseg with hseg | hseg
    · exact hist.segs seg hseg
    · rw [List.mem_singleton] at hseg
      subst hseg
      exact Or.inl rfl
  · intro j hj
    rw [f1, f4, execTime_append_one, if_neg (hne j), add_zero]
    exact hist.rem_acct j hj
  · rw [f1, f5]
    intro hn0
    apply idleInv_append_idle _ _ _ _ _ _ (hist.idle hn0) h1 _ h2
    intro j hj
    cases hjf : s.finished.getD j false with
    | true => exact Or.inl ⟨rfl, rr_completedBy bt at_ n s inv j hj hjf⟩
    | false => exact Or.inr (h3 j hj hjf)
  · intro j hj hjf
    rw [f5] at hjf
    rw [f3]
    have := hist.fin_arrived j hj hjf
    omega
  · rw [f2]
    exact hist.qs_sorted
  · intro x hx
    rw [f2] at hx
    rw [f3]
    have := hist.qs_le x hx
    omega
  · rw [f1, f2, hbusy]
    exact hist.qs_len
  · rw [f1, f2, hbusy]
    exact hist.qs_segs
  · intro snap hsnap
    rw [f2] at hsnap
    rw [f1]
    exact queueExact_append_later bt at_ n _ _ snap (hist.qs_exact snap hsnap) (Or.inl rfl)
  · rw [f1]
    intro k seg hk p hp hpid
    rcases (getElem?_append_one _ _ _ _).1 hk with hk | ⟨_, hk⟩
    · have hlen : k < s.timeline.length := by
        rcases Nat.lt_or_ge k s.timeline.length with h | h
        · exact h
        · rw [List.getElem?_eq_none h] at hk
          cases hk
      rw [List.take_append_of_le_length (by omega)]
      exact hist.quantum_rule k seg hk p hp hpid
    · subst hk
      exact absurd hpid (hne p)
  · rw [f1, hbusy]
    intro seg hseg x hx hxp
    rcases List.mem_append.1 hx with hx | hx
    · exact hist.last_max seg hseg x hx hxp
    · rw [List.mem_singleton] at hx
      subst hx
      exact absurd rfl hxp

theorem getQueueContents_mem (q : List Nat) (j : Nat) :
    ((j : Int) + 1) ∈ getQueueContents q ↔ j ∈ q := by
  unfold getQueueContents
  rw [List.mem_map]
  constructor
  · rintro ⟨a, ha, he⟩
    have : a = j := by omega
    rw [← this]
    exact ha
  · intro h
    exact ⟨j, h, rfl⟩

theorem getQueueContents_nodup (q : List Nat) (h : q.Nodup) : (getQueueContents q).Nodup := by
  unfold getQueueContents
  refine List.Nodup.map ?_ h
  intro a b hab
  simp only at hab
  omega

theorem rr_queue_exact (bt at_ : List Int) (quantum : Int) (n : Nat) (s : RrState)
    (inv : RrInv bt at_ n s) (hist : RrHist bt at_ quantum n s) :
    QueueExact bt at_ n s.timeline ⟨s.t, getQueueContents s.q, 0⟩ := by
  refine ⟨getQueueContents_nodup _ inv.q_nodup, ?_, ?_⟩
  · intro id hid
    unfold getQueueContents at hid
    obtain ⟨j, hj, rfl⟩ := List.mem_map.1 hid
    exact ⟨j, ((inv.q_mem j).1 hj).1, rfl⟩
  · intro j hj
    simp only
    rw [getQueueContents_mem, inv.q_mem j,
      remaining_at_of_all_le bt _ j _ (fun x hx => chained_end_le 0 _ _ inv.chain x hx),
      hist.rem_acct j hj]
    constructor
    · rintro ⟨_, hq⟩
      have h1 := inv.inq_arrived j hj hq
      have h2 := inv.rem_pos j hj (inv.inq_unfinished j hj hq)
      exact ⟨h1, by omega⟩
    · rintro ⟨h1, h2⟩
      refine ⟨hj, ?_⟩
      have hf : s.finished.getD j false = false := by
        cases hf : s.finished.getD j false with
        | false => rfl
        | true =>
          have := inv.rem_zero j hj hf
          omega
      cases hq : s.in_queue.getD j false with
      | true => rfl
      | false =>
        have := inv.arrived j hj hf hq
        omega

theorem rr_dispatch_hist (bt at_ : List Int) (quantum : Int) (hq1 : 1 ≤ quantum) (n : Nat)
    (s : RrState) (inv : RrInv bt at_ n s) (hist : RrHist bt at_ quantum n s) (i : Nat)
    (rest : List Nat) (hq : s.q = i :: rest) :
    RrHist bt at_ quantum n (rr_body bt at_ quantum n s) := by
  obtain ⟨hi, hiq, hif, hia, hir, hnr⟩ := rr_front bt at_ n s inv i rest hq
  obtain ⟨k, hk1, hk, f1, f2, f3, f4, f5, f6, _⟩ :=
    rr_dispatch_facts bt at_ quantum hq1 n s inv hist.fin_arrived i rest hq
  have hends : ∀ x, x ∈ s.timeline → x.end_time ≤ s.t :=
    fun x hx => chained_end_le 0 _ _ inv.chain x hx
  have hbusy : busySegments (s.timeline ++ [⟨(i : Int) + 1, s.t, s.t + k⟩]) =
      busySegments s.timeline ++ [⟨(i : Int) + 1, s.t, s.t + k⟩] := by
    rw [busySegments_append_one, if_neg (pid_ne_zero i)]
  have hget : ∀ {α : Type} (l : List α) (k : Nat) (y : α), l[k]? = some y → k < l.length := by
    intro α l k y h
    rcases Nat.lt_or_ge k l.length with h2 | h2
    · exact h2
    · rw [List.getElem?_eq_none h2] at h
      cases h
  refine ⟨?_, ?_, ?_, ?_, ?_, ?_, ?_, ?_, ?_, ?_, ?_⟩
  · rw [f1]
    intro seg hseg
    rcases List.mem_append.1 hseg with hseg | hseg
    · exact hist.segs seg hseg
    · rw [List.mem_singleton] at hseg
      subst hseg
      exact Or.inr ⟨i, hi, rfl, hia, by simp only; omega⟩
  · intro j hj
    rw [f1, f4 j, execTime_append_one, hist.rem_acct j hj]
    by_cases hji : j = i
    · subst hji
      simp only [if_true]
      ring
    · have : ¬ ((i : Int) + 1 = (j : Int) + 1) := by omega
      simp only [this, hji, if_false, add_zero]
  · rw [f1]
    intro hn0
    exact idleInv_append_busy _ _ _ _ _ _ _ _ (hist.idle hn0)
      (fun (h : s.finished.getD i false = true) => by rw [hif] at h; cases h) f5
  · intro j hj hjf
    rw [f3]
    by_cases hji : j = i
    · subst hji
      omega
    · rw [f6 j hji] at hjf
      have := hist.fin_arrived j hj hjf
      omega
  · rw [f2]
    refine List.pairwise_append.2 ⟨hist.qs_sorted, List.pairwise_singleton _ _, ?_⟩
    intro a ha b hb
    rw [List.mem_singleton] at hb
    subst hb
    exact hist.qs_le a ha
  · intro x hx
    rw [f2] at hx
    rw [f3]
    rcases List.mem_append.1 hx with hx | hx
    · have := hist.qs_le x hx
      omega
    · rw [List.mem_singleton] at hx
      subst hx
      simp only
      omega
  · rw [f1, f2, hbusy]
    simp only [List.length_append, List.length_singleton, hist.qs_len]
  · rw [f1, f2, hbusy]
    intro m seg snap hseg hsnap
    rcases (getElem?_append_one _ _ _ _).1 hseg with hseg | ⟨hm1, hseg⟩
    · rcases (getElem?_append_one _ _ _ _).1 hsnap with hsnap | ⟨hm2, hsnap⟩
      · exact hist.qs_segs m seg snap hseg hsnap
      · have := hget _ _ _ hseg
        have := hist.qs_len
        omega
    · rcases (getElem?_append_one _ _ _ _).1 hsnap with hsnap | ⟨hm2, hsnap⟩
      · have := hget _ _ _ hsnap
        have := hist.qs_len
        omega
      · subst hseg
        subst hsnap
        refine ⟨?_, rfl, ?_⟩
        · simp [getQueueContents, hq]
        · simp [getQueueContents, hq]
  · intro snap hsnap
    rw [f2] at hsnap
    rw [f1]
    rcases List.mem_append.1 hsnap with hsnap | hsnap
    · refine queueExact_append_later bt at_ n _ _ snap (hist.qs_exact snap hsnap) (Or.inr ?_)
      have := hist.qs_le snap hsnap
      simp only
      omega
    · rw [List.mem_singleton] at hsnap
      subst hsnap
      exact queueExact_append_later bt at_ n _ _ _ (rr_queue_exact bt at_ quantum n s inv hist)
        (Or.inr (by simp only; omega))
  · rw [f1]
    intro m seg hm p hp hpid
    rcases (getElem?_append_one _ _ _ _).1 hm with hm | ⟨hm1, hm⟩
    · have hlen := hget _ _ _ hm
      rw [List.take_append_of_le_length (by omega)]
      exact hist.quantum_rule m seg hm p hp hpid
    · subst hm
      subst hm1
      simp only at hpid
      have hpi : p = i := by omega
      subst hpi
      rw [List.take_left, hist.rem_acct p hp]
      simp only
      refine ⟨?_, by omega, by omega⟩
      rw [hk]
      ring_nf
  · rw [f1, hbusy]
    intro seg hseg x hx hxp
    rw [List.getLast?_concat] at hseg
    cases hseg
    simp only
    rcases List.mem_append.1 hx with hx | hx
    · have := hends x hx
      omega
    · rw [List.mem_singleton] at hx
      subst hx
      exact le_refl _

theorem rr_idle_next (bt at_ : List Int) (quantum : Int) (n : Nat) (s : RrState)
    (hin : InRange bt at_ n) (inv : RrInv bt at_ n s) (nxt : RrHistNext bt at_ n s)
    (hq : s.q = []) (hc : s.completed < n) :
    RrHistNext bt at_ n (rr_body bt at_ quantum n s) := by
  obtain ⟨e, h1, h2, h3, f1, f2, f3, f4, f5⟩ := rr_idle_facts bt at_ quantum n s hin inv hq hc
  have hbusy : busySegments (s.timeline ++ [⟨0, s.t, e⟩]) = busySegments s.timeline := by
    rw [busySegments_append_one]
    simp
  have hrem : ∀ (p : Nat) (t : Int), remaining_at bt (s.timeline ++ [⟨0, s.t, e⟩]) p t =
      remaining_at bt s.timeline p t :=
    fun p t => remaining_at_append_later bt _ _ p t (Or.inl rfl)
  refine ⟨?_, ?_, ?_⟩
  · rw [f1, f2, hbusy]
    intro k seg snap hseg hsnap p hp hpid hr
    rw [hrem] at hr
    exact nxt.requeue k seg snap hseg hsnap p hp hpid hr
  · rw [f1, f2, hbusy]
    intro k seg snap hseg hsnap p hp hpid hm
    rw [hrem]
    exact nxt.put_back k seg snap hseg hsnap p hp hpid hm
  · rw [f1, f5, hbusy]
    intro seg hseg p hp hpid hpf
    obtain ⟨_, front, A, hqq, _⟩ := nxt.pending seg hseg p hp hpid hpf
    rw [hq] at hqq
    simp at hqq

theorem rr_dispatch_next (bt at_ : List Int) (quantum : Int) (hq1 : 1 ≤ quantum) (n : Nat)
    (s : RrState) (inv : RrInv bt at_ n s) (hist : RrHist bt at_ quantum n s)
    (nxt : RrHistNext bt at_ n s) (i : Nat) (rest : List Nat) (hq : s.q = i :: rest) :
    RrHistNext bt at_ n (rr_body bt at_ quantum n s) := by
  obtain ⟨hi, hiq, hif, hia, hir, hnr⟩ := rr_front bt at_ n s inv i rest hq
  obtain ⟨k, hk1, hk, f1, f2, f3, f4, f5, f6, f7⟩ :=
    rr_dispatch_facts bt at_ quantum hq1 n s inv hist.fin_arrived i rest hq
  have hends : ∀ x, x ∈ s.timeline → x.end_time ≤ s.t :=
    fun x hx => chained_end_le 0 _ _ inv.chain x hx
  have hbusy : busySegments (s.timeline ++ [⟨(i : Int) + 1, s.t, s.t + k⟩]) =
      busySegments s.timeline ++ [⟨(i : Int) + 1, s.t, s.t + k⟩] := by
    rw [busySegments_append_one, if_neg (pid_ne_zero i)]
  have hget : ∀ {α : Type} (l : List α) (k : Nat) (y : α), l[k]? = some y → k < l.length := by
    intro α l k y h
    rcases Nat.lt_or_ge k l.length with h2 | h2
    · exact h2
    · rw [List.getElem?_eq_none h2] at h
      cases h
  have hrem : ∀ (p : Nat) (t : Int), t ≤ s.t →
      remaining_at bt (s.timeline ++ [⟨(i : Int) + 1, s.t, s.t + k⟩]) p t =
        remaining_at bt s.timeline p t :=
    fun p t ht => remaining_at_append_later bt _ _ p t (Or.inr (by simp only; omega))
  have hold : ∀ (m : Nat) (seg : Timeline), (busySegments s.timeline)[m]? = some seg →
      seg.end_time ≤ s.t := by
    intro m seg hseg
    have := List.getElem?_mem hseg
    exact hends seg ((busySegments_mem _ _).1 this).1
  -- the last segment before this dispatch, when the new snapshot follows it
  have hlast : ∀ (m : Nat) (seg : Timeline), (busySegments s.timeline)[m]? = some seg →
      m + 1 = s.queue_states.length → ∀ p, p < n → seg.process_id = (p : Int) + 1 →
      remaining_at bt s.timeline p seg.end_time = s.rem_bt.getD p 0 ∧
      (s.finished.getD p false = false → RequeuedAfter at_ n seg s.t s.q p) := by
    intro m seg hseg hm p hp hpid
    have hl : (busySegments s.timeline).getLast? = some seg :=
      getLast?_eq_getElem?_pred _ m seg (by rw [← hist.qs_len]; exact hm) hseg
    refine ⟨?_, fun hf => nxt.pending seg hl p hp hpid hf⟩
    rw [remaining_at_of_pid_le bt _ p _ (fun x hx hxp =>
      hist.last_max seg hl x hx (by rw [hxp]; exact pid_ne_zero p)), hist.rem_acct p hp]
    ring
  refine ⟨?_, ?_, ?_⟩
  · rw [f1, f2, hbusy]
    intro m seg snap hseg hsnap p hp hpid hr
    rcases (getElem?_append_one _ _ _ _).1 hseg with hseg | ⟨hm1, hseg⟩
    · rw [hrem p _ (hold m seg hseg)] at hr
      rcases (getElem?_append_one _ _ _ _).1 hsnap with hsnap | ⟨hm2, hsnap⟩
      · exact nxt.requeue m seg snap hseg hsnap p hp hpid hr
      · subst hsnap
        obtain ⟨g1, g2⟩ := hlast m seg hseg hm2 p hp hpid
        rw [g1] at hr
        have hf : s.finished.getD p false = false := by
          cases hf : s.finished.getD p false with
          | false => rfl
          | true =>
            have := inv.rem_zero p hp hf
            omega
        exact ⟨s.q, rfl, g2 hf⟩
    · have h1 := hget _ _ _ hsnap
      simp only [List.length_append, List.length_singleton] at h1
      have h2 := hist.qs_len
      omega
  · rw [f1, f2, hbusy]
    intro m seg snap hseg hsnap p hp hpid hmem
    rcases (getElem?_append_one _ _ _ _).1 hseg with hseg | ⟨hm1, hseg⟩
    · rw [hrem p _ (hold m seg hseg)]
      rcases (getElem?_append_one _ _ _ _).1 hsnap with hsnap | ⟨hm2, hsnap⟩
      · exact nxt.put_back m seg snap hseg hsnap p hp hpid hmem
      · subst hsnap
        obtain ⟨g1, _⟩ := hlast m seg hseg hm2 p hp hpid
        rw [g1]
        simp only at hmem
        rw [getQueueContents_mem] at hmem
        have hq2 := ((inv.q_mem p).1 hmem).2
        have := inv.rem_pos p hp (inv.inq_unfinished p hp hq2)
        omega
    · have h1 := hget _ _ _ hsnap
      simp only [List.length_append, List.length_singleton] at h1
      have h2 := hist.qs_len
      omega
  · rw [f1, f3, hbusy]
    intro seg hseg p hp hpid hpf
    rw [List.getLast?_concat] at hseg
    cases hseg
    simp only at hpid
    have hpi : p = i := by omega
    subst hpi
    obtain ⟨A, a1, a2, a3⟩ := f7 hpf
    exact ⟨rfl, rest, A, a1, a2, a3⟩

/-- Both history invariants are kept by the body of the Round Robin loop. -/
theorem rr_body_hist (bt at_ : List Int) (quantum : Int) (hq1 : 1 ≤ quantum) (n : Nat)
    (hin : InRange bt at_ n) (s : RrState) (inv : RrInv bt at_ n s)
    (hist : RrHist bt at_ quantum n s) (nxt : RrHistNext bt at_ n s)
    (hc : s.completed < n) :
    RrHist bt at_ quantum n (rr_body bt at_ quantum n s) ∧
      RrHistNext bt at_ n (rr_body bt at_ quantum n s) := by
  cases hq : s.q with
  | nil =>
    exact ⟨rr_idle_hist bt at_ quantum n s hin inv hist hq hc,
      rr_idle_next bt at_ quantum n s hin inv nxt hq hc⟩
  | cons i rest =>
    exact ⟨rr_dispatch_hist bt at_ quantum hq1 n s inv hist i rest hq,
      rr_dispatch_next bt at_ quantum hq1 n s inv hist nxt i rest hq⟩

/-- The state before the Round Robin loop: no snapshot yet, and either an empty timeline or
one idle segment up to the earliest arrival. -/
theorem rr_init_facts (bt at_ : List Int) (hin : InRange bt at_ bt.length) :
    (rr_init bt at_).queue_states = [] ∧ (rr_init bt at_).rem_bt = bt ∧
    (rr_init bt at_).finished = List.replicate bt.length false ∧
    ((rr_init bt at_).timeline = [] ∨
      ∃ e : Int, (rr_init bt at_).timeline = [⟨0, 0, e⟩] ∧
        (0 < bt.length → 0 < e ∧ (∃ j, j < bt.length ∧ at_.getD j 0 = e) ∧
          (∀ j, j < bt.length → e ≤ at_.getD j 0))) := by
  have hlen : bt.length ≤ (List.replicate bt.length false).length := by simp
  obtain ⟨h1, h2, h3⟩ := enqueue_scan_spec (fun i => decide (at_.getD i 0 ≤ 0)) bt.length []
    (List.replicate bt.length false) hlen
  unfold rr_init
  simp only
  split
  · rename_i hemp
    refine ⟨rfl, rfl, rfl, Or.inr ?_⟩
    simp only [List.isEmpty_iff] at hemp
    have hlate : ∀ j, j < bt.length → 0 < at_.getD j 0 := by
      intro j hj
      by_contra hle
      have : j ∈ (enqueue_scan (fun i => decide (at_.getD i 0 ≤ 0)) bt.length []
          (List.replicate bt.length false)).1 := by
        rw [h2, List.nil_append, List.mem_filter, List.mem_range]
        refine ⟨hj, ?_⟩
        simp only [getD_replicate_false, Bool.not_false, Bool.and_true, decide_eq_true_eq]
        omega
      rw [hemp] at this
      simp at this
    refine ⟨_, rfl, ?_⟩
    intro hn
    obtain ⟨i, hi, _, he⟩ := next_arrival_attained at_
      (fun i => !(List.replicate bt.length false).getD i false) bt.length hin.at_le 0 hn
      (by simp only [getD_replicate_false, Bool.not_false])
    refine ⟨?_, ⟨i, hi, he⟩, ?_⟩
    · rw [← he]
      exact hlate i hi
    · intro j hj
      exact (next_arrival_spec at_ _ bt.length).2.1 j hj
        (by simp only [getD_replicate_false, Bool.not_false])
  · exact ⟨rfl, rfl, rfl, Or.inl rfl⟩

theorem rr_init_hist (bt at_ : List Int) (quantum : Int) (hin : InRange bt at_ bt.length) :
    RrHist bt at_ quantum bt.length (rr_init bt at_) ∧
      RrHistNext bt at_ bt.length (rr_init bt at_) := by
  obtain ⟨hqs, hrem, hfin, htl⟩ := rr_init_facts bt at_ hin
  have hnf : ∀ j, (rr_init bt at_).finished.getD j false = true → False := by
    intro j hj
    rw [hfin, getD_replicate_false] at hj
    cases hj
  have hbusy : busySegments (rr_init bt at_).timeline = [] := by
    rcases htl with htl | ⟨e, htl, _⟩ <;> rw [htl] <;> rfl
  have hidle : ∀ seg, seg ∈ (rr_init bt at_).timeline → seg.process_id = 0 := by
    intro seg hseg
    rcases htl with htl | ⟨e, htl, _⟩
    · rw [htl] at hseg
      cases hseg
    · rw [htl, List.mem_singleton] at hseg
      rw [hseg]
  constructor
  · refine ⟨?_, ?_, ?_, ?_, ?_, ?_, ?_, ?_, ?_, ?_, ?_⟩
    · intro seg hseg
      exact Or.inl (hidle seg hseg)
    · intro j hj
      rw [hrem, execTime_eq_zero _ _ (fun x hx => by
        rw [hidle x hx]
        exact fun h => pid_ne_zero j h.symm)]
      ring
    · intro hn
      rcases htl with htl | ⟨e, htl, hfacts⟩
      · rw [htl]
        intro seg hseg
        cases hseg
      · obtain ⟨he, hex, hall⟩ := hfacts hn
        rw [htl]
        intro seg hseg _
        rw [List.mem_singleton] at hseg
        subst hseg
        exact ⟨he, fun j hj => Or.inr (hall j hj), hex⟩
    · intro j _ hj
      exact absurd hj (fun h => hnf j h)
    · rw [hqs]
      exact List.Pairwise.nil
    · rw [hqs]
      intro x hx
      cases hx
    · rw [hqs, hbusy]
      rfl
    · rw [hqs]
      intro k seg snap _ h
      simp at h
    · rw [hqs]
      intro snap h
      cases h
    · intro k seg hseg p hp hpid
      have := hidle seg (List.getElem?_mem hseg)
      omega
    · rw [hbusy]
      intro seg h
      cases h
  · refine ⟨?_, ?_, ?_⟩
    · rw [hbusy]
      intro k seg snap h
      simp at h
    · rw [hbusy]
      intro k seg snap h
      simp at h
    · rw [hbusy]
      intro seg h
      cases h

/-- What holds of the final state of the Round Robin loop: the loop invariant, the two
history invariants, and every process finished. -/
theorem rr_final_hist (bt at_ : List Int) (quantum : Int) (hq1 : 1 ≤ quantum)
    (hin : InRange bt at_ bt.length) (fuel : Nat) (s : RrState)
    (h : rr_run fuel bt at_ quantum = some s) :
    RrInv bt at_ bt.length s ∧ RrHist bt at_ quantum bt.length s ∧
      RrHistNext bt at_ bt.length s ∧ ∀ i, i < bt.length → s.finished.getD i false = true := by
  obtain ⟨inv, hall⟩ := rr_final bt at_ quantum hq1 hin fuel s h
  have := while_loop_invariant _ _
    (fun s => RrInv bt at_ bt.length s ∧ RrHist bt at_ quantum bt.length s ∧
      RrHistNext bt at_ bt.length s)
    (fun s inv hc =>
      have hc2 : s.completed < bt.length := by simpa using hc
      ⟨(rr_body_inv bt at_ quantum hq1 _ hin s inv.1 hc2).1,
        rr_body_hist bt at_ quantum hq1 _ hin s inv.1 inv.2.1 inv.2.2 hc2⟩) fuel _ s
    ⟨rr_init_inv bt at_ _ hin, rr_init_hist bt at_ quantum hin⟩ h
  exact ⟨inv, this.1.2.1, this.1.2.2, hall⟩

/-! ## What Round Robin returns -/

theorem rr_returns_of (bt at_ : List Int) (quantum : Int) (hq1 : 1 ≤ quantum)
    (hin : InRange bt at_ bt.length) (P : SchedResult → List QueueState → Prop)
    (h : ∀ s, RrInv bt at_ bt.length s → RrHist bt at_ quantum bt.length s →
      RrHistNext bt at_ bt.length s → (∀ i, i < bt.length → s.finished.getD i false = true) →
      P ⟨s.wt, s.tat, s.timeline⟩ (s.queue_states ++ [⟨s.t, [], 0⟩])) :
    RrReturns bt at_ quantum P := by
  constructor
  · obtain ⟨s, hs⟩ := rr_terminates bt at_ quantum hq1 hin
    exact ⟨2 * bt.sum.toNat + 2, ⟨s.wt, s.tat, s.timeline⟩, s.queue_states ++ [⟨s.t, [], 0⟩],
      by simp only [rr_findavgTime, hs, Option.map_some'],
      by simp only [rr_queue_states, hs, Option.map_some']⟩
  · intro fuel r qs hr hqs
    simp only [rr_findavgTime, Option.map_eq_some'] at hr
    simp only [rr_queue_states, Option.map_eq_some'] at hqs
    obtain ⟨s, hs, rfl⟩ := hr
    obtain ⟨s2, hs2, rfl⟩ := hqs
    rw [hs] at hs2
    cases hs2
    obtain ⟨inv, hist, nxt, hall⟩ := rr_final_hist bt at_ quantum hq1 hin fuel s hs
    exact h s inv hist nxt hall

theorem lt_length_of_getElem? {α : Type} (l : List α) (k : Nat) (y : α)
    (h : l[k]? = some y) : k < l.length := by
  rcases Nat.lt_or_ge k l.length with h2 | h2
  · exact h2
  · rw [List.getElem?_eq_none h2] at h
    cases h

/-- C13: on an input with arrivals in `0..INT_MAX`, bursts >= 1 and quantum >= 1,
`rr_findavgTime` records one snapshot more than the timeline has non-idle segments, and
the `k`-th snapshot has a non-empty queue, the `start_time` of the `k`-th non-idle segment
as its time, and that segment's `process_id` at the front of its queue. -/
theorem rr_snapshots_match_dispatches (bt at_ : List Int) (quantum : Int)
    (hlen : at_.length = bt.length)
    (hat : ∀ a, a ∈ at_ → 0 ≤ a ∧ a ≤ INT_MAX) (hbt : ∀ b, b ∈ bt → 1 ≤ b)
    (hq : 1 ≤ quantum) :
    RrReturns bt at_ quantum (fun r qs =>
      qs.length = (busySegments r.timeline).length + 1 ∧
      ∀ (k : Nat) seg, (busySegments r.timeline)[k]? = some seg →
        ∃ snap, qs[k]? = some snap ∧ SnapshotOf snap seg) := by
  have hin := inRange_of bt at_ hlen hat hbt
  apply rr_returns_of bt at_ quantum hq hin
  intro s inv hist nxt hall
  constructor
  · rw [List.length_append, hist.qs_len]
    rfl
  · intro k seg hseg
    have hk : k < s.queue_states.length := by
      rw [hist.qs_len]
      exact lt_length_of_getElem? _ k seg hseg
    have hsnap : s.queue_states[k]? = some (s.queue_states.get ⟨k, hk⟩) :=
      List.getElem?_eq_getElem hk
    exact ⟨_, (getElem?_append_one _ _ _ _).2 (Or.inl hsnap), hist.qs_segs k seg _ hseg hsnap⟩

/-- Snapshots and dispatches at arrivals `[3,7,3]`, bursts `[2,1,3]`, quantum 2. -/
theorem rr_snapshots_match_dispatches_witness :
    RrReturns [2, 1, 3] [3, 7, 3] 2 (fun r qs =>
      qs.length = (busySegments r.timeline).length + 1 ∧
      ∀ (k : Nat) seg, (busySegments r.timeline)[k]? = some seg →
        ∃ snap, qs[k]? = some snap ∧ SnapshotOf snap seg) :=
  rr_snapshots_match_dispatches [2, 1, 3] [3, 7, 3] 2 (by decide) (by decide) (by decide)
    (by decide)

end CpuSched
